import Mathlib

/-!
Shallow embedding of the reconciliation engine of dependabutler
(internal/pkg/config/config.go) in Lean 4, together with proofs that settle
the frozen claims about its specification.

Modelling conventions:
* Go strings are modelled as `List Char` (`GoStr`).  Go compares strings
  byte-wise; for valid UTF-8 this coincides with code-point order, which is
  what the `Char` order provides.
* Go maps are modelled as association lists (`List (key × value)`).  Go map
  iteration order is unspecified; the embedding iterates in list order.
  Go maps cannot hold duplicate keys; theorems that need this carry a
  `Nodup` hypothesis.
* Go `nil` slices/maps and empty ones are identified (the engine treats
  them interchangeably everywhere it reads them).
* The two injected collaborators (file-content loader, directory-existence
  checker) are modelled as plain functions `GoStr → GoStr` / `GoStr → Bool`;
  their opaque parameter structs are dropped.
* Library boundaries (net/url host parsing, yaml.v3 encoding) are modelled
  by small deterministic functions, documented at their definitions.
-/

namespace Dbl

/-- Go strings, modelled as lists of characters. -/
abbrev GoStr := List Char

/-- Turn a Lean string literal into a `GoStr`. -/
def str (s : String) : GoStr := s.data

/-- Go byte-wise `<` on strings (lexicographic). -/
def strLt : GoStr → GoStr → Bool
  | [], [] => false
  | [], _ :: _ => true
  | _ :: _, [] => false
  | a :: as, b :: bs => decide (a < b) || (decide (a = b) && strLt as bs)

/-- Go `strings.Contains`: substring search. -/
def containsSub (s sub : GoStr) : Bool :=
  s.tails.any (fun t => sub.isPrefixOf t)

/-- Decimal digit character, as produced by Go's `fmt` package. -/
def digCh (n : Nat) : Char := Char.ofNat (48 + n)

/-- Decimal representation of a natural number (Go `%d`). -/
def natChars (n : Nat) : GoStr := Nat.toDigits 10 n

/-- Go `fmt.Sprintf("%02d", n)`: decimal padded to at least two digits. -/
def pad2 (n : Nat) : GoStr :=
  if n < 10 then '0' :: natChars n else natChars n

/-! ## Data model (structs of internal/pkg/config/config.go) -/

/-- `Schedule` holds the config items of a schedule. -/
structure GSchedule where
  Interval : GoStr := []
  Day : GoStr := []
  Time : GoStr := []
  Timezone : GoStr := []
deriving DecidableEq

/-- `CommitMessage` holds the config items for the commit message. -/
structure CommitMessage where
  Pre : GoStr := []
  PreDevelopment : GoStr := []
  Include : GoStr := []
deriving DecidableEq

/-- `Cooldown` holds the cooldown configuration for semver update types. -/
structure Cooldown where
  SemverMajorDays : Int := 0
  SemverMinorDays : Int := 0
  SemverPatchDays : Int := 0
  DefaultDays : Int := 0
  Include : List GoStr := []
  Exclude : List GoStr := []
deriving DecidableEq

/-- `Allow` holds the config items of an allow definition. -/
structure Allow where
  DependencyName : GoStr := []
  DependencyType : GoStr := []
deriving DecidableEq

/-- `Ignore` holds the config items of an ignore definition. -/
structure Ignore where
  DependencyName : GoStr := []
  Versions : List GoStr := []
  UpdateTypes : List GoStr := []
deriving DecidableEq

/-- `Group` holds the config items of a group definition. -/
structure Group where
  Separator : GoStr := []
  Patterns : List GoStr := []
  ExcludePatterns : List GoStr := []
  UpdateTypes : List GoStr := []
  AppliesTo : GoStr := []
deriving DecidableEq

/-- The anonymous `pull-request-branch-name` struct inside `Update`. -/
structure PullRequestBranchName where
  Separator : GoStr := []
deriving DecidableEq

/-- `Update` holds the config items of an update definition. -/
structure Update where
  PackageEcosystem : GoStr := []
  Directory : GoStr := []
  Directories : List GoStr := []
  Schedule : GSchedule := {}
  Registries : List GoStr := []
  CommitMessage : CommitMessage := {}
  OpenPullRequestsLimit : Int := 0
  Assignees : List GoStr := []
  Allow : List Allow := []
  Ignore : List Ignore := []
  Groups : List (GoStr × Group) := []
  InsecureExternalCodeExecution : GoStr := []
  Labels : List GoStr := []
  Milestone : Int := 0
  PullRequestBranchName : PullRequestBranchName := {}
  RebaseStrategy : GoStr := []
  Reviewers : List GoStr := []
  TargetBranch : GoStr := []
  Vendor : Bool := false
  VersioningStrategy : GoStr := []
  Cooldown : Cooldown := {}
deriving DecidableEq

/-- `Registry` holds the config items of a registry definition. -/
structure Registry where
  Typ : GoStr := []
  URL : GoStr := []
  Username : GoStr := []
  Password : GoStr := []
  Key : GoStr := []
  Token : GoStr := []
  ReplacesBase : GoStr := []
deriving DecidableEq

/-- `DefaultRegistry` holds the config items of a default registry. -/
structure DefaultRegistry where
  Typ : GoStr := []
  URL : GoStr := []
  Username : GoStr := []
  Password : GoStr := []
  URLMatchRequired : Bool := false
  URLMatchAdditionalFiles : List GoStr := []
deriving DecidableEq

/-- `UpdateDefaults` holds the default config for new update definitions. -/
structure UpdateDefaults where
  Schedule : GSchedule := {}
  CommitMessage : CommitMessage := {}
  OpenPullRequestsLimit : Int := 0
  InsecureExternalCodeExecution : GoStr := []
  RebaseStrategy : GoStr := []
  Cooldown : Cooldown := {}
deriving DecidableEq

/-- `PullRequestParameters` of the tool configuration (carried, unused by the
reconciliation engine). -/
structure PullRequestParameters where
  AuthorName : GoStr := []
  AuthorEmail : GoStr := []
  CommitMessage : GoStr := []
  PRTitle : GoStr := []
  BranchName : GoStr := []
  BranchNameRandomSuffix : Bool := false
  SleepAfterPRAction : Int := 0
deriving DecidableEq

/-- `ToolConfig` holds the tool's configuration defined in config.yml.
`StableGroupPrefixes` is `*bool` in Go: `none` models the nil pointer. -/
structure ToolConfig where
  UpdateDefaults : UpdateDefaults := {}
  UpdateOverrides : List (GoStr × Dbl.UpdateDefaults) := []
  Registries : List (GoStr × List (GoStr × DefaultRegistry)) := []
  ManifestPatterns : List (GoStr × GoStr) := []
  ManifestIgnorePattern : GoStr := []
  PullRequestParameters : PullRequestParameters := {}
  StableGroupPrefixes : Option Bool := none
deriving DecidableEq

/-- `DependabotConfig` holds the configuration defined in dependabot.yml. -/
structure DependabotConfig where
  Version : Int := 2
  Registries : List (GoStr × Registry) := []
  Updates : List Update := []
  EnableBetaEcoSystems : Bool := false
deriving DecidableEq

/-- `RegistryInfo` holds the properties of a registry, for the change message. -/
structure RegistryInfo where
  Typ : GoStr := []
  Name : GoStr := []
deriving DecidableEq

/-- `UpdateInfo` holds the properties of an update, for the change message. -/
structure UpdateInfo where
  Typ : GoStr := []
  Directory : GoStr := []
  File : GoStr := []
deriving DecidableEq

/-- `ChangeInfo` holds the changes applied to a config. -/
structure ChangeInfo where
  NewRegistries : List RegistryInfo := []
  RemovedRegistries : List RegistryInfo := []
  NewUpdates : List UpdateInfo := []
  FixedUpdates : List UpdateInfo := []
  RemovedUpdates : List UpdateInfo := []
deriving DecidableEq

/-- The `ChangeInfo` literal `UpdateConfig` starts from (five empty lists). -/
def emptyChangeInfo : ChangeInfo := {}

/-! ## Path helpers -/

/-- `PathWithEndingSlash` returns a path with an added slash, if needed. -/
def PathWithEndingSlash (path : GoStr) : GoStr :=
  if path = str "/" ∨ path = [] then str "/"
  else if path.getLast? = some '/' then path
  else path ++ ['/']

/-- The directory part of `filepath.Split`: everything up to and including
the final `/`.  The argument always contains a `/` at the call sites (a
leading one is prepended), so no `filepath` volume handling is needed. -/
def dirPart (l : GoStr) : GoStr :=
  (l.reverse.dropWhile (fun c => c ≠ '/')).reverse

/-- `GetManifestPath` returns the absolute path of a manifest file's
directory.  GitHub Actions manifests are a special case mapping to `/`. -/
def GetManifestPath (manifestFile manifestType : GoStr) : GoStr :=
  if manifestType = str "github-actions" then str "/"
  else if dirPart ('/' :: manifestFile) = str "/" then str "/"
  else (dirPart ('/' :: manifestFile)).dropLast

/-- `hasDirectorySet` checks if a directory is set in an `Update`. -/
def hasDirectorySet (update : Update) : Bool :=
  if update.Directory ≠ [] then true
  else update.Directories.any (fun d => d ≠ [])

/-- `isPathCovered` returns if a manifest file is covered within a
dependabot.yml config.  Special case for Dockerfiles: every subdirectory
needs to be listed individually (exact match instead of prefix match). -/
def isPathCovered (manifestPath manifestType directory : GoStr)
    (directories : List GoStr) : Bool :=
  let cmpFunc : GoStr → GoStr → Bool :=
    if manifestType = str "docker" then fun a b => a = b
    else fun a b => b.isPrefixOf a
  if directory ≠ [] then
    cmpFunc (PathWithEndingSlash manifestPath) (PathWithEndingSlash directory)
  else if directories.length > 0 then
    directories.any (fun d =>
      cmpFunc (PathWithEndingSlash manifestPath) (PathWithEndingSlash d))
  else false

/-! ## Coverage check (`IsManifestCovered`) -/

/-- The per-entry test of `IsManifestCovered`'s loop: the entry is valid
(non-empty ecosystem and a directory set), matches the manifest's ecosystem
and covers its path.  Invalid entries are logged and skipped in Go, which
for the loop's result is the same as not matching. -/
def coversManifest (manifestFile manifestType : GoStr) (update : Update) : Bool :=
  (update.PackageEcosystem ≠ [] && hasDirectorySet update) &&
  update.PackageEcosystem = manifestType &&
  isPathCovered (PathWithEndingSlash (GetManifestPath manifestFile manifestType))
    manifestType update.Directory update.Directories

/-- The registry side effect applied to the covering entry: every name of
`updateRegistries` not yet contained in the entry's (original) registries
list is appended, in order. -/
def addMissingRegistries (updateRegistries : List GoStr) (update : Update) : Update :=
  { update with Registries :=
      update.Registries ++ updateRegistries.filter (fun n => !(update.Registries.contains n)) }

/-- The loop of `IsManifestCovered`: scan the update entries in order; the
first one covering the manifest receives the missing registry names and the
scan stops with `true`.  Returns the (possibly modified) entry list and the
result. -/
def coverScan (manifestFile manifestType : GoStr) (updateRegistries : List GoStr) :
    List Update → List Update × Bool
  | [] => ([], false)
  | u :: rest =>
    if coversManifest manifestFile manifestType u then
      (addMissingRegistries updateRegistries u :: rest, true)
    else
      let (rest', b) := coverScan manifestFile manifestType updateRegistries rest
      (u :: rest', b)

/-- `IsManifestCovered` returns if a manifest file is covered within a
dependabot.yml config; as a side effect it appends newly required registry
names to the covering entry (mutation mirrored by returning the new list). -/
def IsManifestCovered (config : DependabotConfig) (manifestFile manifestType : GoStr)
    (updateRegistries : List GoStr) : List Update × Bool :=
  coverScan manifestFile manifestType updateRegistries config.Updates

/-! ## Registry resolver (`IsRegistryUsed`) -/

/-- Model of `net/url.Parse(...).Hostname()` for registry URLs: the host is
what follows the first `://` up to the next `/`, `?` or `#`, with a `:port`
suffix stripped.  A URL without `://`, or whose host is empty or contains a
character Go's parser rejects there (braces, spaces), yields `[]`, which the
caller treats as the parse-error/empty-host case.  This is a model of the
`net/url` library boundary, not repository code. -/
def urlHostname (s : GoStr) : GoStr :=
  let sep : GoStr := str "://"
  let tls := s.tails.filter (fun t => sep.isPrefixOf t)
  match tls with
  | [] => []
  | t :: _ =>
    let afterSep := t.drop 3
    let hostPort := afterSep.takeWhile (fun c => c ≠ '/' ∧ c ≠ '?' ∧ c ≠ '#')
    let host := hostPort.takeWhile (fun c => c ≠ ':')
    if host.any (fun c => c = '{' ∨ c = '}' ∨ c = ' ') then [] else host

/-- Model of `path/filepath.Join` for the two-argument calls of
`IsRegistryUsed` (no cleaning of `.`/`..`, which the call sites never use). -/
def joinPath (dir file : GoStr) : GoStr :=
  if dir = [] then file
  else if dir.getLast? = some '/' then dir ++ file
  else dir ++ '/' :: file

/-- `IsRegistryUsed` returns if a registry is used by a manifest file: the
registry URL's hostname is searched in the manifest file's content and in
any configured additional files.  An unparsable or hostless URL is logged
and reported unused. -/
def IsRegistryUsed (manifestFile manifestPath : GoStr) (defaultRegistry : DefaultRegistry)
    (loadFileFn : GoStr → GoStr) : Bool :=
  let host := urlHostname defaultRegistry.URL
  if host = [] then false
  else
    let searchFiles := manifestFile ::
      defaultRegistry.URLMatchAdditionalFiles.map (fun f => joinPath manifestPath f)
    searchFiles.any (fun f => containsSub (loadFileFn f) host)

/-! ## Entry synthesis -/

/-- `applyOverrides` updates a config for an `Update`, using overridden
values: composite fields are replaced wholesale when non-zero, scalar
fields when non-empty/non-zero. -/
def applyOverrides (update : Update) (overrides : UpdateDefaults) : Update :=
  let u1 := if overrides.Schedule ≠ ({} : GSchedule) then
    { update with Schedule := overrides.Schedule } else update
  let u2 := if overrides.CommitMessage ≠ ({} : CommitMessage) then
    { u1 with CommitMessage := overrides.CommitMessage } else u1
  let u3 := if overrides.OpenPullRequestsLimit ≠ 0 then
    { u2 with OpenPullRequestsLimit := overrides.OpenPullRequestsLimit } else u2
  let u4 := if overrides.RebaseStrategy ≠ [] then
    { u3 with RebaseStrategy := overrides.RebaseStrategy } else u3
  let u5 := if overrides.InsecureExternalCodeExecution ≠ [] then
    { u4 with InsecureExternalCodeExecution := overrides.InsecureExternalCodeExecution } else u4
  if overrides.Cooldown.SemverMajorDays ≠ 0 ∨ overrides.Cooldown.SemverMinorDays ≠ 0 ∨
      overrides.Cooldown.SemverPatchDays ≠ 0 ∨ overrides.Cooldown.DefaultDays ≠ 0 ∨
      overrides.Cooldown.Include.length > 0 ∨ overrides.Cooldown.Exclude.length > 0 then
    { u5 with Cooldown := overrides.Cooldown }
  else u5

/-- `fixNewUpdateConfig` fixes the config for a newly created `Update`:
`insecure-external-code-execution` is only allowed for bundler, mix, pip. -/
def fixNewUpdateConfig (update : Update) (manifestType : GoStr) : Update :=
  if update.InsecureExternalCodeExecution ≠ [] ∧ manifestType ≠ str "bundler" ∧
      manifestType ≠ str "mix" ∧ manifestType ≠ str "pip" then
    { update with InsecureExternalCodeExecution := [] }
  else update

/-- `assocFind?` models a Go map lookup returning `(value, ok)`. -/
def assocFind? {α : Type} (l : List (GoStr × α)) (k : GoStr) : Option α :=
  (l.find? (fun p => p.1 = k)).map (fun p => p.2)

/-- `createUpdateEntry` creates a new update entry for a manifest file from
the tool defaults, the per-ecosystem overrides, and the fixups. -/
def createUpdateEntry (manifestType manifestPath : GoStr) (toolConfig : ToolConfig) : Update :=
  let cooldown := toolConfig.UpdateDefaults.Cooldown
  let update : Update :=
    { PackageEcosystem := manifestType
      Directory := manifestPath
      Schedule := toolConfig.UpdateDefaults.Schedule
      CommitMessage := toolConfig.UpdateDefaults.CommitMessage
      OpenPullRequestsLimit := toolConfig.UpdateDefaults.OpenPullRequestsLimit
      RebaseStrategy := toolConfig.UpdateDefaults.RebaseStrategy
      InsecureExternalCodeExecution := toolConfig.UpdateDefaults.InsecureExternalCodeExecution
      Cooldown := cooldown }
  let update :=
    match assocFind? toolConfig.UpdateOverrides manifestType with
    | some overrides => applyOverrides update overrides
    | none => update
  fixNewUpdateConfig update manifestType

/-! ## Maintenance fixes for existing entries -/

/-- `fixExistingUpdateConfig` fixes the config for an existing `Update`:
an entry with no directory set gets directory `/` (and its directories list
cleared).  Returns the new entry and whether a fix happened. -/
def fixExistingUpdateConfig (update : Update) : Update × Bool :=
  if ¬ hasDirectorySet update then
    ({ update with Directory := str "/", Directories := [] }, true)
  else (update, false)

/-- `addCooldownToExistingUpdate` adds cooldown configuration to existing
updates that don't have all four numeric fields: such an entry gets the tool
defaults for the four fields, keeps its include list, and keeps its exclude
list unless empty, in which case a fixed placeholder pattern is used.
Returns the new entry and whether a change was made. -/
def addCooldownToExistingUpdate (update : Update) (toolConfig : ToolConfig) : Update × Bool :=
  let hasCooldonwConfig := update.Cooldown.SemverMajorDays ≠ 0 ∧
    update.Cooldown.SemverMinorDays ≠ 0 ∧
    update.Cooldown.SemverPatchDays ≠ 0 ∧
    update.Cooldown.DefaultDays ≠ 0
  if hasCooldonwConfig then (update, false)
  else
    let existingExclude := update.Cooldown.Exclude
    let existingInclude := update.Cooldown.Include
    let existingExclude := if existingExclude.length = 0 then
      [str "@getyourguide*"] else existingExclude
    ({ update with Cooldown :=
        { SemverMajorDays := toolConfig.UpdateDefaults.Cooldown.SemverMajorDays
          SemverMinorDays := toolConfig.UpdateDefaults.Cooldown.SemverMinorDays
          SemverPatchDays := toolConfig.UpdateDefaults.Cooldown.SemverPatchDays
          DefaultDays := toolConfig.UpdateDefaults.Cooldown.DefaultDays
          Include := existingInclude
          Exclude := existingExclude } }, true)

/-! ## Group-prefix stabilization (`ensureStableGroupPrefixes`) -/

/-- Model of a match of the Go regular expression `^(\d{2})_(.+)$`:
exactly two ASCII digits, an underscore, and a non-empty remainder that
contains no newline (RE2's `.` does not match a newline, and without a
multiline flag `$` only matches at the end of the text).  Returns the two
captured groups. -/
def parsePrefixed (s : GoStr) : Option (GoStr × GoStr) :=
  match s with
  | c1 :: c2 :: '_' :: rest =>
    if c1.isDigit ∧ c2.isDigit ∧ rest ≠ [] ∧ ¬ rest.contains '\n' then
      some ([c1, c2], rest)
    else none
  | _ => none

/-- Whether a list contains a duplicate element (some element occurs twice). -/
def dupB (l : List GoStr) : Bool :=
  match l with
  | [] => false
  | x :: xs => xs.contains x || dupB xs

/-- The numeric prefixes of the group names that carry one. -/
def prefixesOf (names : List GoStr) : List GoStr :=
  names.filterMap (fun n => (parsePrefixed n).map (fun p => p.1))

/-- The `needsRenaming` test of `ensureStableGroupPrefixes`: some group name
has no numeric prefix, or two group names carry the same prefix.  (Go
detects a duplicate via a seen-set while iterating; the result — some prefix
occurs twice — does not depend on the iteration order.) -/
def needsRenamingB (names : List GoStr) : Bool :=
  names.any (fun n => (parsePrefixed n).isNone) || dupB (prefixesOf names)

/-- The base name of a group name: the second capture of the prefix pattern
if the name matches it, otherwise the name itself. -/
def baseNameOf (n : GoStr) : GoStr :=
  match parsePrefixed n with
  | some p => p.2
  | none => n

/-- The total preorder realizing `sort.Strings` (ascending).  The sort is
modelled by the structural, stable `List.insertionSort`; for the distinct
keys of a Go map any correct sort produces the same result. -/
def strLeP (a b : GoStr) : Prop := strLt b a = false

instance : DecidableRel strLeP :=
  fun a b => inferInstanceAs (Decidable (strLt b a = false))

/-- `ensureStableGroupPrefixes` ensures all group names have a unique
two-digit numeric prefix (`01_`, `02_`, …).  If any name lacks a prefix or
any prefix collides, all names are recomputed: the original names are
sorted, their base names extracted, and sequential two-digit prefixes
reassigned starting at `01`.  The groups map is modelled as an association
list; Go iterates the map to collect `origNames` and then sorts them, so
only the sorted order matters. -/
def ensureStableGroupPrefixes (update : Update) : Update :=
  if update.Groups.length = 0 then update
  else if ¬ needsRenamingB (update.Groups.map (fun p => p.1)) then update
  else
    { update with Groups :=
        (List.insertionSort strLeP (update.Groups.map (fun p => p.1))).enum.map (fun p =>
          (pad2 (p.1 + 1) ++ '_' :: baseNameOf p.2,
           (assocFind? update.Groups p.2).getD {})) }

/-! ## Manifest processing (`ProcessManifest`) -/

/-- The registry-resolution loop at the start of `ProcessManifest`: for each
default registry of the manifest's ecosystem, skip it if usage confirmation
is required and fails; otherwise reference it and add it to the document's
registry map if not yet present (recording it in the change info).  Returns
(referenced names, new registry map, new-registry records). -/
def resolveRegistries (manifestFile manifestPath : GoStr)
    (loadFileFn : GoStr → GoStr) (registries : List (GoStr × Registry)) :
    List (GoStr × DefaultRegistry) →
    List GoStr × List (GoStr × Registry) × List RegistryInfo
  | [] => ([], registries, [])
  | (name, defaultRegistry) :: rest =>
    if defaultRegistry.URLMatchRequired ∧
        ¬ IsRegistryUsed manifestFile manifestPath defaultRegistry loadFileFn then
      resolveRegistries manifestFile manifestPath loadFileFn registries rest
    else
      let (registries', added) :=
        if (assocFind? registries name).isSome then (registries, [])
        else (registries ++ [(name,
                { Typ := defaultRegistry.Typ
                  URL := defaultRegistry.URL
                  Username := defaultRegistry.Username
                  Password := defaultRegistry.Password : Registry })],
              [{ Typ := defaultRegistry.Typ, Name := name : RegistryInfo }])
      let (names, registries'', added') :=
        resolveRegistries manifestFile manifestPath loadFileFn registries' rest
      (name :: names, registries'', added ++ added')

/-- `ProcessManifest` adds config for a new manifest file to dependabot.yml
if necessary: resolve the default registries of its ecosystem, then check
coverage (with its registry side effect) and append a fresh entry when the
manifest is not covered. -/
def ProcessManifest (config : DependabotConfig) (manifestFile manifestType : GoStr)
    (toolConfig : ToolConfig) (changeInfo : ChangeInfo)
    (loadFileFn : GoStr → GoStr) : DependabotConfig × ChangeInfo :=
  if manifestFile = [] ∨ manifestType = [] then (config, changeInfo)
  else
    let manifestPath := GetManifestPath manifestFile manifestType
    let (updateRegistries, registries', newRegs) :=
      match assocFind? toolConfig.Registries manifestType with
      | none => ([], config.Registries, [])
      | some defaultRegistries =>
        resolveRegistries manifestFile manifestPath loadFileFn config.Registries
          defaultRegistries
    let config := { config with Registries := registries' }
    let changeInfo := { changeInfo with
      NewRegistries := (changeInfo.NewRegistries ++ newRegs) }
    let (updates', covered) :=
      IsManifestCovered config manifestFile manifestType updateRegistries
    if covered then
      ({ config with Updates := updates' }, changeInfo)
    else
      let update := createUpdateEntry manifestType manifestPath toolConfig
      let update := if updateRegistries.length > 0 then
        { update with Registries := updateRegistries } else update
      ({ config with Updates := updates' ++ [update] },
       { changeInfo with NewUpdates := (changeInfo.NewUpdates ++
          [{ Typ := manifestType, Directory := manifestPath, File := manifestFile }]) })

/-! ## The reconciliation run (`UpdateConfig`) -/

/-- The `sort.SliceStable` comparator for manifests: by length of the
containing directory (with its trailing slash), then lexicographically, so
base directories are processed before subdirectories. -/
def manifestLess (a b : GoStr × GoStr) : Bool :=
  let path1 := dirPart ('/' :: a.1)
  let path2 := dirPart ('/' :: b.1)
  decide (path1.length < path2.length) ||
    (decide (path1.length = path2.length) && strLt path1 path2)

/-- The total preorder realizing `sort.SliceStable` with the strict
comparator `manifestLess`: ties keep their original relative order, which
is exactly what the stable `List.insertionSort` does. -/
def manifestLeP (a b : GoStr × GoStr) : Prop := manifestLess b a = false

instance : DecidableRel manifestLeP :=
  fun a b => inferInstanceAs (Decidable (manifestLess b a = false))

/-- One step of the fix-existing-updates loop of `UpdateConfig`: directory
repair followed by cooldown backfill; the entry is recorded as fixed when
either reports a change. -/
def fixPass (toolConfig : ToolConfig) (update : Update) : Update × Bool :=
  let (u1, f1) := fixExistingUpdateConfig update
  let (u2, f2) := addCooldownToExistingUpdate u1 toolConfig
  (u2, f1 || f2)

/-- Stage 1 of `UpdateConfig`: remove updates whose directory does not exist
according to the injected checker, recording them as removed. -/
def pruneStaleStage (checkDirectoryExists : GoStr → Bool)
    (config : DependabotConfig) (changeInfo : ChangeInfo) :
    DependabotConfig × ChangeInfo :=
  let kept := config.Updates.filter (fun u => checkDirectoryExists u.Directory)
  let removed := config.Updates.filter (fun u => !(checkDirectoryExists u.Directory))
  ({ config with Updates := kept },
   { changeInfo with RemovedUpdates := (changeInfo.RemovedUpdates ++
      removed.map (fun u =>
        { Typ := u.PackageEcosystem, Directory := u.Directory, File := [] })) })

/-- Stage 2 of `UpdateConfig`: fix existing updates (directory repair and
cooldown backfill), recording fixed entries. -/
def fixStage (toolConfig : ToolConfig) (config : DependabotConfig)
    (changeInfo : ChangeInfo) : DependabotConfig × ChangeInfo :=
  let results := config.Updates.map (fixPass toolConfig)
  ({ config with Updates := results.map (fun r => r.1) },
   { changeInfo with FixedUpdates := (changeInfo.FixedUpdates ++
      (results.filter (fun r => r.2)).map (fun r =>
        { Typ := r.1.PackageEcosystem, Directory := r.1.Directory, File := [] })) })

/-- Stage 3 of `UpdateConfig`: process every manifest, in the sorted order. -/
def processStage (manifestsSorted : List (GoStr × GoStr)) (toolConfig : ToolConfig)
    (loadFileFn : GoStr → GoStr) (config : DependabotConfig)
    (changeInfo : ChangeInfo) : DependabotConfig × ChangeInfo :=
  manifestsSorted.foldl
    (fun s m => ProcessManifest s.1 m.1 m.2 toolConfig s.2 loadFileFn)
    (config, changeInfo)

/-- Stage 4 of `UpdateConfig`: stabilize group prefixes for every entry with
groups, unless the tri-state flag is explicitly `false` (a nil pointer means
enabled). -/
def groupStage (toolConfig : ToolConfig) (config : DependabotConfig) :
    DependabotConfig :=
  if toolConfig.StableGroupPrefixes = none ∨ toolConfig.StableGroupPrefixes = some true then
    { config with Updates := config.Updates.map (fun u =>
        if u.Groups.length > 0 then ensureStableGroupPrefixes u else u) }
  else config

/-- Stage 5 of `UpdateConfig`: remove registries referenced by no update,
recording them as removed. -/
def pruneRegistriesStage (config : DependabotConfig) (changeInfo : ChangeInfo) :
    DependabotConfig × ChangeInfo :=
  let referenced := fun (name : GoStr) =>
    config.Updates.any (fun u => u.Registries.contains name)
  let kept := config.Registries.filter (fun p => referenced p.1)
  let removed := config.Registries.filter (fun p => !(referenced p.1))
  ({ config with Registries := kept },
   { changeInfo with RemovedRegistries := (changeInfo.RemovedRegistries ++
      removed.map (fun p => { Typ := p.2.Typ, Name := p.1 })) })

/-- `UpdateConfig` updates a dependabot config with a list of manifests
found and the tool's config: sort the manifests (base directories first),
prune stale entries, fix existing entries, process every manifest, stabilize
group prefixes, and prune unused registries.  Returns the new document and
the accumulated change info (the Go method mutates the receiver). -/
def UpdateConfig (config : DependabotConfig) (manifests : List (GoStr × GoStr))
    (toolConfig : ToolConfig) (loadFileFn : GoStr → GoStr)
    (checkDirectoryExists : GoStr → Bool) : DependabotConfig × ChangeInfo :=
  let manifestsSorted := List.insertionSort manifestLeP manifests
  let (c1, i1) := pruneStaleStage checkDirectoryExists config emptyChangeInfo
  let (c2, i2) := fixStage toolConfig c1 i1
  let (c3, i3) := processStage manifestsSorted toolConfig loadFileFn c2 i2
  let c4 := groupStage toolConfig c3
  pruneRegistriesStage c4 i3

/-! ## Serialization (`ToYaml`) -/

/-- The `sort.Slice` comparator of `ToYaml`: ascending by
(package-ecosystem, directory). -/
def updateLess (a b : Update) : Bool :=
  strLt a.PackageEcosystem b.PackageEcosystem ||
    (decide (a.PackageEcosystem = b.PackageEcosystem) && strLt a.Directory b.Directory)

/-- The total preorder realizing `sort.Slice` with the strict comparator
`updateLess`.  (`sort.Slice` leaves the order of ties unspecified; the
stable `List.insertionSort` fixes one deterministic choice.) -/
def updateLeP (a b : Update) : Prop := updateLess b a = false

instance : DecidableRel updateLeP :=
  fun a b => inferInstanceAs (Decidable (updateLess b a = false))

/-- The in-place sorting at the start of `ToYaml`: entries sorted by
(ecosystem, directory) to avoid commits due to changed order only.  Exposed
separately because the Go method mutates the document it serializes. -/
def sortForYaml (config : DependabotConfig) : DependabotConfig :=
  if config.Updates.length > 1 then
    { config with Updates := List.insertionSort updateLeP config.Updates }
  else config

/-! ## Templated-secret quoting (the regex pass of `ToYaml`) -/

/-- Model of a match of the Go regular expression pattern for templated
secret expressions at the start of the input: a dollar sign, two opening
braces, a non-empty greedy run of non-closing-brace characters, and two
closing braces.  Returns the matched text and the remainder. -/
def matchSecretAt (s : GoStr) : Option (GoStr × GoStr) :=
  match s with
  | '$' :: '{' :: '{' :: rest =>
    if rest.takeWhile (fun c => c ≠ '}') ≠ [] ∧
        (rest.drop (rest.takeWhile (fun c => c ≠ '}')).length).take 2 = ['}', '}'] then
      some ('$' :: '{' :: '{' :: rest.takeWhile (fun c => c ≠ '}') ++ ['}', '}'],
            (rest.drop (rest.takeWhile (fun c => c ≠ '}')).length).drop 2)
    else none
  | _ => none

/-- Leftmost match of the templated-secret pattern: the text before the
match, the match, and the remainder (RE2 finds the leftmost match and this
pattern admits no backtracking). -/
def findSecret : GoStr → Option (GoStr × GoStr × GoStr)
  | [] => none
  | c :: cs =>
    match matchSecretAt (c :: cs) with
    | some (m, rest) => some ([], m, rest)
    | none => (findSecret cs).map (fun p => (c :: p.1, p.2.1, p.2.2))

theorem matchSecretAt_rest_lt {s m rest : GoStr}
    (h : matchSecretAt s = some (m, rest)) : rest.length < s.length := by
  unfold matchSecretAt at h
  split at h
  · split at h
    · simp only [Option.some.injEq, Prod.mk.injEq] at h
      obtain ⟨-, rfl⟩ := h
      simp only [List.length_drop, List.length_cons]
      omega
    · simp at h
  · simp at h

theorem findSecret_rest_lt {s p m rest : GoStr}
    (h : findSecret s = some (p, m, rest)) : rest.length < s.length := by
  induction s generalizing p m rest with
  | nil => simp [findSecret] at h
  | cons c cs ih =>
    unfold findSecret at h
    cases hm : matchSecretAt (c :: cs) with
    | some pr =>
      rw [hm] at h
      obtain ⟨m', rest'⟩ := pr
      simp only [Option.some.injEq, Prod.mk.injEq] at h
      obtain ⟨_, _, rfl⟩ := h
      exact matchSecretAt_rest_lt hm
    | none =>
      rw [hm] at h
      simp only [Option.map_eq_some'] at h
      obtain ⟨⟨p', m', rest''⟩, hfind, heq⟩ := h
      simp only [Prod.mk.injEq] at heq
      obtain ⟨_, _, rfl⟩ := heq
      have := ih hfind
      simp only [List.length_cons]
      omega

/-- The quoting pass of `ToYaml`, by steps: every leftmost, non-overlapping
match of the templated-secret pattern is wrapped in double quotes (Go's
`ReplaceAllString` with the quoted capture as replacement).  The fuel
argument — always called with at least the input's length — only bounds the
recursion so that the function stays structurally recursive; each match
consumes at least one character. -/
def replaceSecretsAux : Nat → GoStr → GoStr
  | 0, s => s
  | fuel + 1, s =>
    match findSecret s with
    | none => s
    | some (p, m, rest) => p ++ '"' :: m ++ '"' :: replaceSecretsAux fuel rest

/-- The quoting pass of `ToYaml` (see `replaceSecretsAux`). -/
def replaceSecrets (s : GoStr) : GoStr := replaceSecretsAux s.length s

/-- The leftmost, non-overlapping matches of the templated-secret pattern,
by steps (see `replaceSecretsAux` for the fuel). -/
def secretMatchesAux : Nat → GoStr → List GoStr
  | 0, _ => []
  | fuel + 1, s =>
    match findSecret s with
    | none => []
    | some (_, m, rest) => m :: secretMatchesAux fuel rest

/-- The list of leftmost, non-overlapping matches of the templated-secret
pattern in a string — the matches Go's `ReplaceAllString` rewrites. -/
def secretMatches (s : GoStr) : List GoStr := secretMatchesAux s.length s

/-! ## A deterministic YAML emitter (the yaml.v3 boundary) -/

/-- Indentation helper for the YAML emitter. -/
def ind (n : Nat) : GoStr := List.replicate n ' '

/-- Emit `key: value` at an indentation level. -/
def yKV (n : Nat) (k : String) (v : GoStr) : GoStr :=
  ind n ++ str k ++ str ": " ++ v ++ ['\n']

/-- Emit `key: value` only when the value is non-empty (yaml `omitempty`). -/
def yOptS (n : Nat) (k : String) (v : GoStr) : GoStr :=
  if v = [] then [] else yKV n k v

/-- Decimal representation of an integer. -/
def intChars (i : Int) : GoStr :=
  if i < 0 then '-' :: natChars i.natAbs else natChars i.toNat

/-- Emit `key: n` only when `n` is non-zero (yaml `omitempty`). -/
def yOptI (n : Nat) (k : String) (i : Int) : GoStr :=
  if i = 0 then [] else yKV n k (intChars i)

/-- Emit a string list as a YAML block sequence, when non-empty. -/
def yOptList (n : Nat) (k : String) (l : List GoStr) : GoStr :=
  if l = [] then []
  else ind n ++ str k ++ str ":" ++ ['\n'] ++
    (l.map (fun v => ind (n + 2) ++ str "- " ++ v ++ ['\n'])).flatten

/-- Emit a schedule block, when non-empty. -/
def yIntervalBlock (n : Nat) (s : GSchedule) : GoStr :=
  if s = ({} : GSchedule) then []
  else ind n ++ str "schedule:" ++ ['\n'] ++
    yOptS (n + 2) "interval" s.Interval ++ yOptS (n + 2) "day" s.Day ++
    yOptS (n + 2) "time" s.Time ++ yOptS (n + 2) "timezone" s.Timezone

/-- Emit a commit-message block, when non-empty. -/
def yCommitBlock (n : Nat) (c : CommitMessage) : GoStr :=
  if c = ({} : CommitMessage) then []
  else ind n ++ str "commit-message:" ++ ['\n'] ++
    yOptS (n + 2) "prefix" c.Pre ++
    yOptS (n + 2) "prefix-development" c.PreDevelopment ++
    yOptS (n + 2) "include" c.Include

/-- Emit a cooldown block, when non-empty. -/
def yCooldownBlock (n : Nat) (c : Cooldown) : GoStr :=
  if c = ({} : Cooldown) then []
  else ind n ++ str "cooldown:" ++ ['\n'] ++
    yOptI (n + 2) "semver-major-days" c.SemverMajorDays ++
    yOptI (n + 2) "semver-minor-days" c.SemverMinorDays ++
    yOptI (n + 2) "semver-patch-days" c.SemverPatchDays ++
    yOptI (n + 2) "default-days" c.DefaultDays ++
    yOptList (n + 2) "include" c.Include ++
    yOptList (n + 2) "exclude" c.Exclude

/-- Emit one group definition. -/
def yGroup (n : Nat) (p : GoStr × Group) : GoStr :=
  ind n ++ p.1 ++ str ":" ++ ['\n'] ++
    yOptS (n + 2) "dependency-type" p.2.Separator ++
    yOptList (n + 2) "patterns" p.2.Patterns ++
    yOptList (n + 2) "exclude-patterns" p.2.ExcludePatterns ++
    yOptList (n + 2) "update-types" p.2.UpdateTypes ++
    yOptS (n + 2) "applies-to" p.2.AppliesTo

/-- Emit one update entry. -/
def yUpdate (u : Update) : GoStr :=
  str "  - " ++ str "package-ecosystem" ++ str ": " ++ u.PackageEcosystem ++ ['\n'] ++
    yOptS 4 "directory" u.Directory ++
    yOptList 4 "directories" u.Directories ++
    yIntervalBlock 4 u.Schedule ++
    yOptList 4 "registries" u.Registries ++
    yCommitBlock 4 u.CommitMessage ++
    yOptI 4 "open-pull-requests-limit" u.OpenPullRequestsLimit ++
    yOptList 4 "assignees" u.Assignees ++
    (if u.Groups = [] then [] else
      ind 4 ++ str "groups:" ++ ['\n'] ++ (u.Groups.map (yGroup 6)).flatten) ++
    yOptS 4 "insecure-external-code-execution" u.InsecureExternalCodeExecution ++
    yOptList 4 "labels" u.Labels ++
    yOptI 4 "milestone" u.Milestone ++
    yOptS 4 "rebase-strategy" u.RebaseStrategy ++
    yOptList 4 "reviewers" u.Reviewers ++
    yOptS 4 "target-branch" u.TargetBranch ++
    (if u.Vendor then yKV 4 "vendor" (str "true") else []) ++
    yOptS 4 "versioning-strategy" u.VersioningStrategy ++
    yCooldownBlock 4 u.Cooldown

/-- Emit one registry definition. -/
def yRegistry (p : GoStr × Registry) : GoStr :=
  ind 2 ++ p.1 ++ str ":" ++ ['\n'] ++
    yOptS 4 "type" p.2.Typ ++ yOptS 4 "url" p.2.URL ++
    yOptS 4 "username" p.2.Username ++ yOptS 4 "password" p.2.Password ++
    yOptS 4 "key" p.2.Key ++ yOptS 4 "token" p.2.Token ++
    yOptS 4 "replaces-base" p.2.ReplacesBase

/-- Deterministic model of the yaml.v3 structural encoding of a
`DependabotConfig` (a library boundary, not repository code): field order
follows the struct tags, `omitempty` fields are skipped when zero, and map
entries are emitted sorted by key, which is what yaml.v3 does for Go maps.
Scalar quoting is not modelled; the secret-expression pass on top of it is
(`replaceSecrets`). -/
def yamlEncode (config : DependabotConfig) : GoStr :=
  yKV 0 "version" (intChars config.Version) ++
  (if config.Registries = [] then [] else
    str "registries:" ++ ['\n'] ++
    ((List.insertionSort (fun a b => strLt b.1 a.1 = false) config.Registries).map
      yRegistry).flatten) ++
  str "updates:" ++ ['\n'] ++
  (config.Updates.map yUpdate).flatten ++
  (if config.EnableBetaEcoSystems then yKV 0 "enable-beta-ecosystems" (str "true") else [])

/-- `ToYaml` returns a YAML representation of a dependabot config: entries
are sorted by (ecosystem, directory) for deterministic output, the document
is structurally encoded, and templated secret expressions are quoted.  The
Go method sorts the document in place; `sortForYaml` exposes that mutation. -/
def ToYaml (config : DependabotConfig) : GoStr :=
  replaceSecrets (yamlEncode (sortForYaml config))

/-! ## Supporting lemmas -/

theorem addMissingRegistries_mem (regs : List GoStr) (u : Update) :
    ∀ n ∈ regs, n ∈ (addMissingRegistries regs u).Registries := by
  intro n hn
  unfold addMissingRegistries
  simp only [List.mem_append, List.mem_filter]
  by_cases hmem : n ∈ u.Registries
  · exact Or.inl hmem
  · exact Or.inr ⟨hn, by simp [hmem]⟩

theorem coverScan_found (f t : GoStr) (regs : List GoStr) (l : List Update)
    (h : ∃ u ∈ l, coversManifest f t u = true) :
    ∃ pre u post, l = pre ++ u :: post ∧
      (∀ v ∈ pre, ¬ coversManifest f t v = true) ∧ coversManifest f t u = true ∧
      coverScan f t regs l = (pre ++ addMissingRegistries regs u :: post, true) := by
  induction l with
  | nil => simp at h
  | cons u0 rest ih =>
    by_cases hc : coversManifest f t u0 = true
    · refine ⟨[], u0, rest, rfl, by simp, hc, ?_⟩
      simp [coverScan, hc]
    · obtain ⟨u, hu, hcov⟩ := h
      rcases List.mem_cons.mp hu with rfl | hu
      · exact absurd hcov hc
      · obtain ⟨pre, v, post, heq, hpre, hcv, hscan⟩ := ih ⟨u, hu, hcov⟩
        refine ⟨u0 :: pre, v, post, by simp [heq], ?_, hcv, ?_⟩
        · intro w hw
          rcases List.mem_cons.mp hw with rfl | hw
          · exact hc
          · exact hpre w hw
        · simp [coverScan, hc, hscan]

theorem coverScan_not_found (f t : GoStr) (regs : List GoStr) (l : List Update)
    (h : ∀ u ∈ l, ¬ coversManifest f t u = true) :
    coverScan f t regs l = (l, false) := by
  induction l with
  | nil => rfl
  | cons u0 rest ih =>
    have h0 := h u0 (List.mem_cons_self u0 rest)
    have hr := ih (fun u hu => h u (List.mem_cons_of_mem u0 hu))
    simp [coverScan, h0, hr]

theorem assocFind_on_keys {α : Type} (d : α) (G : List (GoStr × α))
    (h : (G.map (fun p => p.1)).Nodup) :
    (G.map (fun p => p.1)).map (fun n => (assocFind? G n).getD d) =
      G.map (fun p => p.2) := by
  induction G with
  | nil => rfl
  | cons p rest ih =>
    simp only [List.map_cons, List.nodup_cons] at h ⊢
    have hhead : (assocFind? (p :: rest) p.1).getD d = p.2 := by
      simp [assocFind?, List.find?]
    have hmap : ∀ n ∈ rest.map (fun p => p.1),
        (assocFind? (p :: rest) n).getD d = (assocFind? rest n).getD d := by
      intro n hn
      have hne : ¬ (p.1 = n) := fun he => h.1 (he ▸ hn)
      simp [assocFind?, List.find?, hne]
    rw [hhead, List.map_congr_left hmap]
    rw [ih h.2]

/-! ## Claim C9 -/

/-- C9: calling `ProcessManifest` with an empty manifest file path or an
empty manifest type leaves the document and the `ChangeInfo` completely
unchanged.  (The Go function returns before touching the receiver, so in
particular the nil-ness of its slice/map fields — identified with emptiness
in this embedding — is also preserved.) -/
theorem claim9_processManifest_frame (config : DependabotConfig)
    (manifestFile manifestType : GoStr) (toolConfig : ToolConfig)
    (changeInfo : ChangeInfo) (loadFileFn : GoStr → GoStr)
    (h : manifestFile = [] ∨ manifestType = []) :
    ProcessManifest config manifestFile manifestType toolConfig changeInfo loadFileFn =
      (config, changeInfo) := by
  unfold ProcessManifest
  rw [if_pos h]

theorem claim9_witness :
    (([] : GoStr) = [] ∨ str "npm" = []) ∧
      ProcessManifest {} [] (str "npm") {} {} (fun _ => []) =
        (({} : DependabotConfig), ({} : ChangeInfo)) :=
  ⟨Or.inl rfl, claim9_processManifest_frame {} [] (str "npm") {} {} (fun _ => [])
    (Or.inl rfl)⟩

/-! ## Claim C3 -/

/-- C3: the claim (and the package's own test `TestIsRegistryUsed`, case
"Environment variable URL should return true") expects `IsRegistryUsed` to
return `true` unconditionally when the registry URL is a templated secret
reference.  The code in src takes the invalid-URL branch for such a URL
(no parsable hostname) and returns `false`: evaluated here at the test's
own input.  The file-content loader returns empty content, so the `true`
expected by the test could only come from the (missing) templated-URL
early return. -/
theorem claim3_code_eval :
    IsRegistryUsed (str "Dockerfile") (str "/")
      { Typ := str "docker-registry",
        URL := str "$\x7b\x7bsecrets.JFROG_ARTIFACTORY_URL\x7d\x7d",
        URLMatchRequired := true }
      (fun _ => []) = false := by decide

/-! ## Claim C8 -/

/-- C8: whenever `IsManifestCovered` finds an entry covering the manifest
(the first valid entry of matching ecosystem whose directory/directories
cover the manifest path), every registry name in `updateRegistries` that
this entry's registries list does not yet contain is appended to it (in
place — mirrored here by the returned list), and the function returns
`true`.  Afterwards the covering entry references every supplied name. -/
theorem claim8_coverage_side_effect (config : DependabotConfig)
    (manifestFile manifestType : GoStr) (updateRegistries : List GoStr)
    (h : ∃ u ∈ config.Updates, coversManifest manifestFile manifestType u = true) :
    ∃ pre u post, config.Updates = pre ++ u :: post ∧
      (∀ v ∈ pre, ¬ coversManifest manifestFile manifestType v = true) ∧
      coversManifest manifestFile manifestType u = true ∧
      IsManifestCovered config manifestFile manifestType updateRegistries =
        (pre ++ addMissingRegistries updateRegistries u :: post, true) ∧
      ∀ n ∈ updateRegistries, n ∈ (addMissingRegistries updateRegistries u).Registries := by
  obtain ⟨pre, u, post, heq, hpre, hcov, hscan⟩ :=
    coverScan_found manifestFile manifestType updateRegistries config.Updates h
  exact ⟨pre, u, post, heq, hpre, hcov, by rw [IsManifestCovered, hscan],
    addMissingRegistries_mem updateRegistries u⟩

theorem claim8_witness :
    (∃ u ∈ ({ Updates := [{ PackageEcosystem := str "npm", Directory := str "/" }] } :
        DependabotConfig).Updates, coversManifest (str "package.json") (str "npm") u = true) ∧
    (∃ pre u post,
      ({ Updates := [{ PackageEcosystem := str "npm", Directory := str "/" }] } :
        DependabotConfig).Updates = pre ++ u :: post ∧
      (∀ v ∈ pre, ¬ coversManifest (str "package.json") (str "npm") v = true) ∧
      coversManifest (str "package.json") (str "npm") u = true ∧
      IsManifestCovered { Updates := [{ PackageEcosystem := str "npm", Directory := str "/" }] }
        (str "package.json") (str "npm") [str "npm-reg"] =
        (pre ++ addMissingRegistries [str "npm-reg"] u :: post, true) ∧
      ∀ n ∈ [str "npm-reg"], n ∈ (addMissingRegistries [str "npm-reg"] u).Registries) :=
  ⟨by decide,
   claim8_coverage_side_effect
     { Updates := [{ PackageEcosystem := str "npm", Directory := str "/" }] }
     (str "package.json") (str "npm") [str "npm-reg"] (by decide)⟩

/-! ## Claim C10 -/

/-- C10: `ensureStableGroupPrefixes` preserves the number of groups and the
multiset of group bodies: it only renames keys, never adds, drops, merges,
or alters a group definition.  The hypothesis that the group names are
distinct models the Go map, whose keys cannot repeat. -/
theorem map_snd_enum_pairs {β γ : Type} (l : List GoStr)
    (f : ℕ × GoStr → β) (g : GoStr → γ) :
    (l.enum.map (fun p => (f p, g p.2))).map (fun q => q.2) = l.map g := by
  conv_rhs => rw [← List.enum_map_snd l, List.map_map]
  rw [List.map_map]
  rfl

/-- C10: `ensureStableGroupPrefixes` preserves the number of groups and the
multiset of group bodies: it only renames keys, never adds, drops, merges,
or alters a group definition.  The hypothesis that the group names are
distinct models the Go map, whose keys cannot repeat. -/
theorem claim10_rename_preserves_groups (u : Update)
    (h : (u.Groups.map (fun p => p.1)).Nodup) :
    (ensureStableGroupPrefixes u).Groups.length = u.Groups.length ∧
      ((ensureStableGroupPrefixes u).Groups.map (fun p => p.2)).Perm
        (u.Groups.map (fun p => p.2)) := by
  unfold ensureStableGroupPrefixes
  split
  · exact ⟨rfl, List.Perm.refl _⟩
  · split
    · exact ⟨rfl, List.Perm.refl _⟩
    · constructor
      · simp [(List.perm_insertionSort strLeP (u.Groups.map (fun p => p.1))).length_eq]
      · have hbodies :
            (((List.insertionSort strLeP (u.Groups.map (fun p => p.1))).enum.map (fun p =>
              (pad2 (p.1 + 1) ++ '_' :: baseNameOf p.2,
               (assocFind? u.Groups p.2).getD ({} : Group)))).map (fun q => q.2)) =
            ((List.insertionSort strLeP (u.Groups.map (fun p => p.1))).map (fun n =>
              (assocFind? u.Groups n).getD ({} : Group))) :=
          map_snd_enum_pairs (List.insertionSort strLeP (u.Groups.map (fun p => p.1)))
            (fun p => pad2 (p.1 + 1) ++ '_' :: baseNameOf p.2)
            (fun n => (assocFind? u.Groups n).getD ({} : Group))
        rw [hbodies, ← assocFind_on_keys ({} : Group) u.Groups h]
        exact (List.perm_insertionSort strLeP (u.Groups.map (fun p => p.1))).map _

theorem claim10_witness :
    ((([(str "a", ({ Patterns := [str "p1"] } : Group)),
        (str "02_b", ({ Patterns := [str "p2"] } : Group))].map (fun p => p.1)).Nodup) ∧
     ((ensureStableGroupPrefixes
        { Groups := [(str "a", { Patterns := [str "p1"] }),
                     (str "02_b", { Patterns := [str "p2"] })] }).Groups.length =
        ([(str "a", ({ Patterns := [str "p1"] } : Group)),
          (str "02_b", ({ Patterns := [str "p2"] } : Group))] : List (GoStr × Group)).length ∧
      ((ensureStableGroupPrefixes
        { Groups := [(str "a", { Patterns := [str "p1"] }),
                     (str "02_b", { Patterns := [str "p2"] })] }).Groups.map
          (fun p => p.2)).Perm
        (([(str "a", ({ Patterns := [str "p1"] } : Group)),
           (str "02_b", ({ Patterns := [str "p2"] } : Group))] :
            List (GoStr × Group)).map (fun p => p.2)))) :=
  ⟨by decide,
   claim10_rename_preserves_groups
     { Groups := [(str "a", { Patterns := [str "p1"] }),
                  (str "02_b", { Patterns := [str "p2"] })] } (by decide)⟩

/-! ## Claim C5 -/

/-- C5: coverage matching is ecosystem-dependent.  For the docker ecosystem
a manifest's directory (trailing slash normalized) must exactly equal the
entry's directory — or, when no single directory is set, one of its
directories — to count as covered; for every other ecosystem prefix
matching on slash-terminated directories is used.  Consequently, from an
empty document, manifests `app/Dockerfile` and `other/sub/Dockerfile` yield
exactly two entries with directories `/app` and `/other/sub`, and manifests
`pip1/requirements.txt` and `pip1/sub/requirements.txt` yield exactly one
entry with directory `/pip1`. -/
theorem claim5_coverage_policy :
    (∀ (manifestPath directory : GoStr) (directories : List GoStr),
       isPathCovered manifestPath (str "docker") directory directories = true ↔
       ((directory ≠ [] ∧
           PathWithEndingSlash manifestPath = PathWithEndingSlash directory) ∨
        (directory = [] ∧ ∃ d ∈ directories,
           PathWithEndingSlash manifestPath = PathWithEndingSlash d))) ∧
    (∀ (manifestType manifestPath directory : GoStr) (directories : List GoStr),
       manifestType ≠ str "docker" →
       (isPathCovered manifestPath manifestType directory directories = true ↔
        ((directory ≠ [] ∧
            (PathWithEndingSlash directory).isPrefixOf
              (PathWithEndingSlash manifestPath) = true) ∨
         (directory = [] ∧ ∃ d ∈ directories,
            (PathWithEndingSlash d).isPrefixOf
              (PathWithEndingSlash manifestPath) = true)))) ∧
    ((UpdateConfig {} [(str "app/Dockerfile", str "docker"),
        (str "other/sub/Dockerfile", str "docker")] {} (fun _ => [])
        (fun _ => true)).1.Updates.map (fun u => (u.PackageEcosystem, u.Directory)) =
      [(str "docker", str "/app"), (str "docker", str "/other/sub")]) ∧
    ((UpdateConfig {} [(str "pip1/requirements.txt", str "pip"),
        (str "pip1/sub/requirements.txt", str "pip")] {} (fun _ => [])
        (fun _ => true)).1.Updates.map (fun u => (u.PackageEcosystem, u.Directory)) =
      [(str "pip", str "/pip1")]) := by
  refine ⟨?_, ?_, by decide, by decide⟩
  · intro manifestPath directory directories
    by_cases hdir : directory = []
    · subst hdir
      by_cases hlen : directories.length > 0
      · simp [isPathCovered, hlen, List.any_eq_true]
      · have hnil : directories = [] := by
          cases directories with
          | nil => rfl
          | cons a l => simp at hlen
        subst hnil
        simp [isPathCovered]
    · simp [isPathCovered, hdir]
  · intro manifestType manifestPath directory directories ht
    by_cases hdir : directory = []
    · subst hdir
      by_cases hlen : directories.length > 0
      · simp [isPathCovered, ht, hlen, List.any_eq_true]
      · have hnil : directories = [] := by
          cases directories with
          | nil => rfl
          | cons a l => simp at hlen
        subst hnil
        simp [isPathCovered, ht]
    · simp [isPathCovered, ht, hdir]

theorem claim5_witness :
    (str "npm" ≠ str "docker") ∧
    (isPathCovered (str "/pip1/sub") (str "npm") (str "/pip1") [] = true ↔
     ((str "/pip1" ≠ [] ∧
         (PathWithEndingSlash (str "/pip1")).isPrefixOf
           (PathWithEndingSlash (str "/pip1/sub")) = true) ∨
      (str "/pip1" = [] ∧ ∃ d ∈ ([] : List GoStr),
         (PathWithEndingSlash d).isPrefixOf
           (PathWithEndingSlash (str "/pip1/sub")) = true))) :=
  ⟨by decide, claim5_coverage_policy.2.1 (str "npm") (str "/pip1/sub") (str "/pip1") []
    (by decide)⟩

/-! ## Claim C4 -/

/-- The renaming rule exactly as the claim words it: collect the base names
(numeric prefix stripped if present), sort the BASE names lexicographically,
and reassign sequential two-digit prefixes starting at 01, each base name
keeping its group body. -/
def claimGroupRename (G : List (GoStr × Group)) : List (GoStr × Group) :=
  let baseAssoc := G.map (fun p => (baseNameOf p.1, p.2))
  (List.insertionSort strLeP (baseAssoc.map (fun p => p.1))).enum.map (fun p =>
    (pad2 (p.1 + 1) ++ '_' :: p.2, (assocFind? baseAssoc p.2).getD {}))

/-- C4 counterexample: the code sorts the ORIGINAL group names and strips
the prefixes afterwards, not the base names.  For groups `{a, 02_b}` (which
need renaming, since `a` lacks a prefix) the code produces `{01_b, 02_a}`
(sorted original order: `02_b` before `a`), while the claim's base-name
sort predicts `{01_a, 02_b}`. -/
theorem claim4_counterexample :
    needsRenamingB ([(str "a", ({} : Group)), (str "02_b", ({} : Group))].map
      (fun p => p.1)) = true ∧
    (ensureStableGroupPrefixes
      { Groups := [(str "a", {}), (str "02_b", {})] }).Groups.map (fun p => p.1) =
      [str "01_b", str "02_a"] ∧
    (claimGroupRename [(str "a", {}), (str "02_b", {})]).map (fun p => p.1) =
      [str "01_a", str "02_b"] ∧
    (ensureStableGroupPrefixes
      { Groups := [(str "a", {}), (str "02_b", {})] }).Groups ≠
      claimGroupRename [(str "a", {}), (str "02_b", {})] := by decide

/-- C4 amended: for every entry whose group names do not all carry unique
two-digit numeric prefixes, the new names are computed by sorting the
ORIGINAL names lexicographically and prefixing each name's base name
(numeric prefix stripped if present) with sequential two-digit prefixes
starting at 01 — not by sorting the base names.  The claim's two examples
hold unchanged (stripping does not change their sort order), and an entry
whose groups are already uniquely and correctly prefixed is left
unchanged. -/
theorem claim4_amended :
    (∀ u : Update, ¬ needsRenamingB (u.Groups.map (fun p => p.1)) = true →
       ensureStableGroupPrefixes u = u) ∧
    (∀ u : Update, u.Groups.length ≠ 0 →
       needsRenamingB (u.Groups.map (fun p => p.1)) = true →
       (ensureStableGroupPrefixes u).Groups =
         (List.insertionSort strLeP (u.Groups.map (fun p => p.1))).enum.map (fun p =>
           (pad2 (p.1 + 1) ++ '_' :: baseNameOf p.2,
            (assocFind? u.Groups p.2).getD {}))) ∧
    ((ensureStableGroupPrefixes
      { Groups := [(str "frontend", { Patterns := [str "react*", str "vue*"] }),
                   (str "backend", { Patterns := [str "express*", str "fastify*"] }),
                   (str "tooling", { Patterns := [str "webpack*", str "babel*"] })] }).Groups =
      [(str "01_backend", { Patterns := [str "express*", str "fastify*"] }),
       (str "02_frontend", { Patterns := [str "react*", str "vue*"] }),
       (str "03_tooling", { Patterns := [str "webpack*", str "babel*"] })]) ∧
    ((ensureStableGroupPrefixes
      { Groups := [(str "01_frontend", { Patterns := [str "react*", str "vue*"] }),
                   (str "01_backend", { Patterns := [str "express*", str "fastify*"] })] }).Groups =
      [(str "01_backend", { Patterns := [str "express*", str "fastify*"] }),
       (str "02_frontend", { Patterns := [str "react*", str "vue*"] })]) := by
  refine ⟨?_, ?_, by decide, by decide⟩
  · intro u hnr
    unfold ensureStableGroupPrefixes
    by_cases h0 : u.Groups.length = 0
    · rw [if_pos h0]
    · rw [if_neg h0, if_pos hnr]
  · intro u hlen hnr
    unfold ensureStableGroupPrefixes
    rw [if_neg hlen, if_neg (not_not_intro hnr)]

theorem claim4_witness :
    ensureStableGroupPrefixes
      { Groups := [(str "01_frontend", { Patterns := [str "react*"] }),
                   (str "02_backend", { Patterns := [str "express*"] })] } =
      { Groups := [(str "01_frontend", { Patterns := [str "react*"] }),
                   (str "02_backend", { Patterns := [str "express*"] })] } :=
  claim4_amended.1
    { Groups := [(str "01_frontend", { Patterns := [str "react*"] }),
                 (str "02_backend", { Patterns := [str "express*"] })] }
    (by decide)

/-! ## Claim C2 -/

/-- Modelled from the spec: the tri-state flag `update-missing-cooldown-settings`
of the tool configuration and its gating of the cooldown backfill are
missing from src — the `ToolConfig` in src has no such field, although the
package's tests (`TestCoolDownWithUpdateFlagFalse`/`True`) and the README
document it.  Per the spec (§4.5): unset or false means only newly created
entries receive cooldown settings and existing entries are left untouched;
true means the backfill of the four numeric cooldown fields — the src
function `addCooldownToExistingUpdate` — runs on existing entries.  The
flag is passed explicitly since the src `ToolConfig` cannot carry it. -/
def addCooldownWithFlag (updateMissingCooldownSettings : Option Bool)
    (update : Update) (toolConfig : ToolConfig) : Update × Bool :=
  if updateMissingCooldownSettings = some true then
    addCooldownToExistingUpdate update toolConfig
  else (update, false)

/-- C2 (against the spec-modelled flag, which src lacks): with the flag
unset or false, existing entries are never touched (and newly created
entries still receive the tool's cooldown settings); with the flag true, an
entry already carrying all four numeric cooldown fields is never modified,
and an entry missing any of them is backfilled with the tool defaults,
preserving any user-set include list and preserving (or defaulting to the
fixed placeholder pattern) the exclude list. -/
theorem claim2_cooldown_flag :
    (∀ (flag : Option Bool) (u : Update) (tc : ToolConfig),
       flag = none ∨ flag = some false →
       addCooldownWithFlag flag u tc = (u, false)) ∧
    (∀ (t p : GoStr) (tc : ToolConfig), tc.UpdateOverrides = [] →
       (createUpdateEntry t p tc).Cooldown = tc.UpdateDefaults.Cooldown) ∧
    (∀ (u : Update) (tc : ToolConfig),
       u.Cooldown.SemverMajorDays ≠ 0 ∧ u.Cooldown.SemverMinorDays ≠ 0 ∧
       u.Cooldown.SemverPatchDays ≠ 0 ∧ u.Cooldown.DefaultDays ≠ 0 →
       addCooldownWithFlag (some true) u tc = (u, false)) ∧
    (∀ (u : Update) (tc : ToolConfig),
       ¬ (u.Cooldown.SemverMajorDays ≠ 0 ∧ u.Cooldown.SemverMinorDays ≠ 0 ∧
          u.Cooldown.SemverPatchDays ≠ 0 ∧ u.Cooldown.DefaultDays ≠ 0) →
       addCooldownWithFlag (some true) u tc =
         ({ u with Cooldown :=
             { SemverMajorDays := tc.UpdateDefaults.Cooldown.SemverMajorDays
               SemverMinorDays := tc.UpdateDefaults.Cooldown.SemverMinorDays
               SemverPatchDays := tc.UpdateDefaults.Cooldown.SemverPatchDays
               DefaultDays := tc.UpdateDefaults.Cooldown.DefaultDays
               Include := u.Cooldown.Include
               Exclude := if u.Cooldown.Exclude.length = 0 then
                 [str "@getyourguide*"] else u.Cooldown.Exclude } }, true)) := by
  refine ⟨?_, ?_, ?_, ?_⟩
  · intro flag u tc hflag
    rcases hflag with rfl | rfl <;> rfl
  · intro t p tc hov
    have hnone : assocFind? tc.UpdateOverrides (t : GoStr) = none := by
      rw [hov]; rfl
    unfold createUpdateEntry
    rw [hnone]
    dsimp only
    unfold fixNewUpdateConfig
    split <;> rfl
  · intro u tc hc
    unfold addCooldownWithFlag addCooldownToExistingUpdate
    rw [if_pos rfl, if_pos hc]
  · intro u tc hc
    unfold addCooldownWithFlag addCooldownToExistingUpdate
    rw [if_pos rfl, if_neg hc]

theorem claim2_witness :
    addCooldownWithFlag none
      { PackageEcosystem := str "npm", Directory := str "/",
        Cooldown := { DefaultDays := 10 } } {} =
      ({ PackageEcosystem := str "npm", Directory := str "/",
         Cooldown := { DefaultDays := 10 } }, false) :=
  claim2_cooldown_flag.1 none
    { PackageEcosystem := str "npm", Directory := str "/",
      Cooldown := { DefaultDays := 10 } } {} (Or.inl rfl)

/-! ## Order lemmas for the serialization comparators -/

theorem strLt_irrefl (a : GoStr) : strLt a a = false := by
  induction a with
  | nil => rfl
  | cons c cs ih => simp [strLt, ih]

theorem strLt_trans {a b c : GoStr} (h1 : strLt a b = true) (h2 : strLt b c = true) :
    strLt a c = true := by
  induction a generalizing b c with
  | nil =>
    cases b with
    | nil => simp [strLt] at h1
    | cons y ys =>
      cases c with
      | nil => simp [strLt] at h2
      | cons z zs => rfl
  | cons x xs ih =>
    cases b with
    | nil => simp [strLt] at h1
    | cons y ys =>
      cases c with
      | nil => simp [strLt] at h2
      | cons z zs =>
        simp only [strLt, Bool.or_eq_true, Bool.and_eq_true, decide_eq_true_eq] at h1 h2 ⊢
        rcases h1 with h1 | ⟨rfl, h1⟩
        · rcases h2 with h2 | ⟨rfl, h2⟩
          · exact Or.inl (lt_trans h1 h2)
          · exact Or.inl h1
        · rcases h2 with h2 | ⟨rfl, h2⟩
          · exact Or.inl h2
          · exact Or.inr ⟨rfl, ih h1 h2⟩

theorem strLt_connex {a b : GoStr} (h1 : strLt a b = false) (h2 : strLt b a = false) :
    a = b := by
  induction a generalizing b with
  | nil =>
    cases b with
    | nil => rfl
    | cons y ys => simp [strLt] at h1
  | cons x xs ih =>
    cases b with
    | nil => simp [strLt] at h2
    | cons y ys =>
      simp only [strLt, Bool.or_eq_false_iff, Bool.and_eq_false_iff,
        decide_eq_false_iff_not] at h1 h2
      have hxy : x = y := le_antisymm (not_lt.mp h2.1) (not_lt.mp h1.1)
      subst hxy
      rcases h1.2 with hh | hh
      · exact absurd rfl hh
      · rcases h2.2 with hh2 | hh2
        · exact absurd rfl hh2
        · rw [ih hh hh2]

theorem strLt_asymm {a b : GoStr} (h : strLt a b = true) : strLt b a = false := by
  cases hba : strLt b a with
  | false => rfl
  | true =>
    have := strLt_trans h hba
    rw [strLt_irrefl] at this
    simp at this

theorem strLt_false_of_eq {a b : GoStr} (h : a = b) : strLt a b = false := by
  rw [h, strLt_irrefl]

theorem updateLess_asymm {a b : Update} (h : updateLess a b = true) :
    updateLess b a = false := by
  unfold updateLess at h ⊢
  simp only [Bool.or_eq_true, Bool.and_eq_true, decide_eq_true_eq] at h
  simp only [Bool.or_eq_false_iff, Bool.and_eq_false_iff, decide_eq_false_iff_not]
  rcases h with h | ⟨heq, h⟩
  · refine ⟨strLt_asymm h, Or.inl fun he => ?_⟩
    rw [he, strLt_irrefl] at h
    simp at h
  · rw [heq]
    exact ⟨strLt_irrefl _, Or.inr (strLt_asymm h)⟩

instance : IsTotal Update updateLeP where
  total a b := by
    unfold updateLeP
    cases hab : updateLess a b with
    | true => exact Or.inl (updateLess_asymm hab)
    | false => exact Or.inr rfl

theorem strLt_neg_trans {a b c : GoStr} (h1 : strLt b a = false)
    (h2 : strLt c b = false) : strLt c a = false := by
  cases hca : strLt c a with
  | false => rfl
  | true =>
    exfalso
    cases hbc : strLt b c with
    | true =>
      have := strLt_trans hbc hca
      rw [h1] at this
      simp at this
    | false =>
      have heq : b = c := strLt_connex hbc h2
      rw [← heq] at hca
      rw [h1] at hca
      simp at hca

instance : IsTrans Update updateLeP where
  trans a b c hab hbc := by
    unfold updateLeP at hab hbc ⊢
    unfold updateLess at hab hbc ⊢
    simp only [Bool.or_eq_false_iff, Bool.and_eq_false_iff,
      decide_eq_false_iff_not] at hab hbc ⊢
    have hba : strLt b.PackageEcosystem a.PackageEcosystem = false := hab.1
    have hcb : strLt c.PackageEcosystem b.PackageEcosystem = false := hbc.1
    refine ⟨strLt_neg_trans hba hcb, ?_⟩
    by_cases hceq : c.PackageEcosystem = a.PackageEcosystem
    · refine Or.inr ?_
      -- the ecosystems of a, b, c all coincide in this case
      have hab2 : b.PackageEcosystem = a.PackageEcosystem := by
        have hax : strLt a.PackageEcosystem b.PackageEcosystem = false := by
          rw [← hceq]
          exact hcb
        exact strLt_connex hba hax
      have hbc2 : c.PackageEcosystem = b.PackageEcosystem := by
        rw [hceq, ← hab2]
      rcases hab.2 with hne | hdir
      · exact absurd hab2 hne
      · rcases hbc.2 with hne2 | hdir2
        · exact absurd hbc2 hne2
        · exact strLt_neg_trans hdir hdir2
    · exact Or.inl hceq
/-! ## Shape and quoting lemmas for the secret-expression pass -/

theorem matchSecretAt_shape {s m rest : GoStr} (h : matchSecretAt s = some (m, rest)) :
    ∃ inner : GoStr, inner ≠ [] ∧ '}' ∉ inner ∧
      m = '$' :: '{' :: '{' :: inner ++ ['}', '}'] := by
  unfold matchSecretAt at h
  split at h
  · split at h
    · rename_i hcond
      simp only [Option.some.injEq, Prod.mk.injEq] at h
      obtain ⟨hm, -⟩ := h
      refine ⟨_, hcond.1, ?_, hm.symm⟩
      intro hmem
      have := List.mem_takeWhile_imp hmem
      simp at this
    · simp at h
  · simp at h

theorem findSecret_shape {s p m rest : GoStr} (h : findSecret s = some (p, m, rest)) :
    ∃ inner : GoStr, inner ≠ [] ∧ '}' ∉ inner ∧
      m = '$' :: '{' :: '{' :: inner ++ ['}', '}'] := by
  induction s generalizing p m rest with
  | nil => simp [findSecret] at h
  | cons c cs ih =>
    unfold findSecret at h
    cases hm : matchSecretAt (c :: cs) with
    | some pr =>
      rw [hm] at h
      obtain ⟨m1, rest1⟩ := pr
      simp only [Option.some.injEq, Prod.mk.injEq] at h
      obtain ⟨-, hmeq, -⟩ := h
      exact hmeq ▸ matchSecretAt_shape hm
    | none =>
      rw [hm] at h
      simp only [Option.map_eq_some'] at h
      obtain ⟨⟨p1, m1, rest1⟩, hfind, heq⟩ := h
      simp only [Prod.mk.injEq] at heq
      obtain ⟨-, hmeq, -⟩ := heq
      exact hmeq ▸ ih hfind

theorem secretMatchesAux_quoted (fuel : Nat) :
    ∀ s : GoStr, s.length ≤ fuel → ∀ m ∈ secretMatchesAux fuel s,
      ('"' :: m ++ ['"']) <:+: replaceSecretsAux fuel s ∧
      ∃ inner : GoStr, inner ≠ [] ∧ '}' ∉ inner ∧
        m = '$' :: '{' :: '{' :: inner ++ ['}', '}'] := by
  induction fuel with
  | zero =>
    intro s hs m hm
    simp [secretMatchesAux] at hm
  | succ fuel ih =>
    intro s hs m hm
    rw [secretMatchesAux] at hm
    rw [replaceSecretsAux]
    cases hf : findSecret s with
    | none =>
      rw [hf] at hm
      simp at hm
    | some t =>
      obtain ⟨p, m1, rest⟩ := t
      rw [hf] at hm
      simp only [List.mem_cons] at hm
      have hrlen : rest.length ≤ fuel := by
        have := findSecret_rest_lt hf
        omega
      rcases hm with rfl | hm
      · refine ⟨⟨p, replaceSecretsAux fuel rest, by simp⟩, findSecret_shape hf⟩
      · have hrec := ih rest hrlen m hm
        refine ⟨hrec.1.trans (List.IsSuffix.isInfix ?_), hrec.2⟩
        exact ⟨p ++ '"' :: m1 ++ ['"'], by simp⟩

/-! ## Claim C7 -/

/-- C7: `ToYaml` emits the update entries sorted ascending by
(package-ecosystem, directory); and every templated secret expression the
replacement pass matches in the encoded output — every leftmost,
non-overlapping match of the pattern, each of the shape of a dollar sign,
two opening braces, a non-empty run of non-closing-brace characters, and
two closing braces — appears wrapped in double quotes in the emitted
bytes. -/
theorem claim7_serialization :
    (∀ config : DependabotConfig,
       (sortForYaml config).Updates.Pairwise updateLeP ∧
       ((sortForYaml config).Updates).Perm config.Updates) ∧
    (∀ config : DependabotConfig,
       ∀ m ∈ secretMatches (yamlEncode (sortForYaml config)),
         (∃ inner : GoStr, inner ≠ [] ∧ '}' ∉ inner ∧
            m = '$' :: '{' :: '{' :: inner ++ ['}', '}']) ∧
         ('"' :: m ++ ['"']) <:+: ToYaml config) := by
  constructor
  · intro config
    unfold sortForYaml
    split
    · exact ⟨List.sorted_insertionSort updateLeP config.Updates,
        List.perm_insertionSort updateLeP config.Updates⟩
    · rename_i hlen
      constructor
      · cases hu : config.Updates with
        | nil => simp
        | cons a l =>
          cases l with
          | nil => simp
          | cons b l2 =>
            exfalso
            rw [hu] at hlen
            simp at hlen
      · exact List.Perm.refl _
  · intro config m hm
    have := secretMatchesAux_quoted (yamlEncode (sortForYaml config)).length
      (yamlEncode (sortForYaml config)) le_rfl m hm
    exact ⟨this.2, this.1⟩

/-- A two-entry document for exercising the serializer's sorting. -/
def yamlWitnessDoc : DependabotConfig :=
  { Updates := [{ PackageEcosystem := str "npm", Directory := str "/" },
                { PackageEcosystem := str "docker", Directory := str "/app" }] }

/-- A document holding a templated secret, for exercising the quoting pass. -/
def yamlSecretDoc : DependabotConfig :=
  { Registries := [(str "npm-reg",
      { Typ := str "npm-registry"
        URL := str "https://npm.example.com"
        Password := str "$\x7b\x7bsecrets.NPM_TOKEN\x7d\x7d" })]
    Updates := [{ PackageEcosystem := str "npm"
                  Directory := str "/"
                  Registries := [str "npm-reg"] }] }

set_option maxRecDepth 40000 in
theorem claim7_witness :
    ((sortForYaml yamlWitnessDoc).Updates.Pairwise updateLeP ∧
     ((sortForYaml yamlWitnessDoc).Updates).Perm yamlWitnessDoc.Updates) ∧
    ((str "$\x7b\x7bsecrets.NPM_TOKEN\x7d\x7d" ∈
        secretMatches (yamlEncode (sortForYaml yamlSecretDoc))) ∧
     (∃ inner : GoStr, inner ≠ [] ∧ '}' ∉ inner ∧
        str "$\x7b\x7bsecrets.NPM_TOKEN\x7d\x7d" =
          '$' :: '{' :: '{' :: inner ++ ['}', '}']) ∧
     ('"' :: str "$\x7b\x7bsecrets.NPM_TOKEN\x7d\x7d" ++ ['"']) <:+:
        ToYaml yamlSecretDoc) :=
  ⟨claim7_serialization.1 yamlWitnessDoc,
   by decide,
   claim7_serialization.2 yamlSecretDoc
     (str "$\x7b\x7bsecrets.NPM_TOKEN\x7d\x7d") (by decide)⟩

/-! ## Claim C6 -/

/-- The stale-entry scenario: one docker entry at `/app`, a checker that
rejects `/app`, and a manifest that still maps to `/app`. -/
def staleDoc : DependabotConfig :=
  { Updates := [{ PackageEcosystem := str "docker", Directory := str "/app" }] }

/-- The reconciliation run of the stale-entry scenario. -/
def staleRun : DependabotConfig × ChangeInfo :=
  UpdateConfig staleDoc [(str "app/Dockerfile", str "docker")] {}
    (fun _ => []) (fun d => decide (d ≠ str "/app"))

/-- C6 counterexample: the entry whose directory fails the checker is
removed and recorded — but because pruning runs before manifest processing,
the manifest `app/Dockerfile` is no longer covered and a fresh entry for
`/app` IS added back in the same run (and recorded in NewUpdates),
contradicting the claim's "not re-added even if a manifest in the input set
still maps to its directory". -/
theorem claim6_counterexample :
    staleRun.2.RemovedUpdates =
      [{ Typ := str "docker", Directory := str "/app", File := [] }] ∧
    staleRun.2.NewUpdates =
      [{ Typ := str "docker", Directory := str "/app", File := str "app/Dockerfile" }] ∧
    staleRun.1.Updates.any (fun u => u.Directory = str "/app") = true := by
  decide

/-- C6 amended: after manifest processing, the final stage removes exactly
the registries referenced by zero surviving entries, recording them in
RemovedRegistries (so every surviving registry is referenced by some
surviving entry); before manifest processing, the first stage removes
exactly the entries whose directory fails the injected checker, recording
them in RemovedUpdates; `UpdateConfig` is the composition of these stages
around the fix and manifest-processing stages — and a removed entry CAN be
re-added by the same run when a manifest still maps to its directory, as in
the `staleRun` scenario, where the removed `/app` entry reappears both in
the document and in NewUpdates. -/
theorem claim6_amended :
    (∀ (c : DependabotConfig) (i : ChangeInfo),
       (pruneRegistriesStage c i).1.Registries =
         c.Registries.filter (fun p =>
           c.Updates.any (fun u => u.Registries.contains p.1)) ∧
       (pruneRegistriesStage c i).1.Updates = c.Updates ∧
       (pruneRegistriesStage c i).2.RemovedRegistries =
         (i.RemovedRegistries ++
           (c.Registries.filter (fun p =>
             !(c.Updates.any (fun u => u.Registries.contains p.1)))).map
             (fun p => { Typ := p.2.Typ, Name := p.1 })) ∧
       (∀ n r, (n, r) ∈ (pruneRegistriesStage c i).1.Registries →
         ∃ u ∈ (pruneRegistriesStage c i).1.Updates, n ∈ u.Registries)) ∧
    (∀ (checkDirectoryExists : GoStr → Bool) (config : DependabotConfig)
       (i : ChangeInfo),
       (pruneStaleStage checkDirectoryExists config i).1.Updates =
         config.Updates.filter (fun u => checkDirectoryExists u.Directory) ∧
       (pruneStaleStage checkDirectoryExists config i).2.RemovedUpdates =
         (i.RemovedUpdates ++
           (config.Updates.filter (fun u =>
             !(checkDirectoryExists u.Directory))).map (fun u =>
             { Typ := u.PackageEcosystem, Directory := u.Directory, File := [] }))) ∧
    (∀ (config : DependabotConfig) (manifests : List (GoStr × GoStr))
       (toolConfig : ToolConfig) (loadFileFn : GoStr → GoStr)
       (checkDirectoryExists : GoStr → Bool),
       UpdateConfig config manifests toolConfig loadFileFn checkDirectoryExists =
         (let s1 := pruneStaleStage checkDirectoryExists config emptyChangeInfo
          let s2 := fixStage toolConfig s1.1 s1.2
          let s3 := processStage (List.insertionSort manifestLeP manifests)
            toolConfig loadFileFn s2.1 s2.2
          pruneRegistriesStage (groupStage toolConfig s3.1) s3.2)) ∧
    (staleRun.2.RemovedUpdates =
      [{ Typ := str "docker", Directory := str "/app", File := [] }] ∧
     staleRun.1.Updates.any (fun u => u.Directory = str "/app") = true ∧
     staleRun.2.NewUpdates ≠ []) := by
  refine ⟨?_, ?_, ?_, by decide⟩
  · intro c i
    refine ⟨rfl, rfl, rfl, ?_⟩
    intro n r hmem
    have hmem2 : (n, r) ∈ c.Registries.filter (fun p =>
        c.Updates.any (fun u => u.Registries.contains p.1)) := hmem
    have := (List.mem_filter.mp hmem2).2
    simp only [List.any_eq_true] at this
    obtain ⟨u, hu, hcon⟩ := this
    exact ⟨u, hu, by simpa using hcon⟩
  · intro chk config i
    exact ⟨rfl, rfl⟩
  · intro config manifests tc lf chk
    rfl

theorem claim6_witness :
    ((pruneRegistriesStage
        { Registries := [(str "unused-reg", { Typ := str "npm-registry" })]
          Updates := [{ PackageEcosystem := str "npm", Directory := str "/" }] }
        {}).1.Registries = [] ∧
     (pruneRegistriesStage
        { Registries := [(str "unused-reg", { Typ := str "npm-registry" })]
          Updates := [{ PackageEcosystem := str "npm", Directory := str "/" }] }
        {}).2.RemovedRegistries =
       [{ Typ := str "npm-registry", Name := str "unused-reg" }]) := by
  have h := claim6_amended.1
    { Registries := [(str "unused-reg", { Typ := str "npm-registry" })]
      Updates := [{ PackageEcosystem := str "npm", Directory := str "/" }] }
    ({} : ChangeInfo)
  refine ⟨?_, ?_⟩
  · rw [h.1]
    decide
  · rw [h.2.2.1]
    decide

/-! ## Invariants of a reconciled document (towards conditional idempotence) -/

/-- The entry has a directory set. -/
def dirSet (u : Update) : Prop := hasDirectorySet u = true

/-- All four numeric cooldown fields of the entry are set. -/
def cdComplete (u : Update) : Prop :=
  u.Cooldown.SemverMajorDays ≠ 0 ∧ u.Cooldown.SemverMinorDays ≠ 0 ∧
  u.Cooldown.SemverPatchDays ≠ 0 ∧ u.Cooldown.DefaultDays ≠ 0

/-- The entry's group names already carry unique two-digit prefixes. -/
def stableGroups (u : Update) : Prop :=
  needsRenamingB (u.Groups.map (fun p => p.1)) = false

/-- The manifest is trivial (empty file or type) or covered by some entry. -/
def coveredIn (l : List Update) (f t : GoStr) : Prop :=
  f = [] ∨ t = [] ∨ ∃ u ∈ l, coversManifest f t u = true

/-- Every registry of the document is referenced by some entry. -/
def regsReferenced (c : DependabotConfig) : Prop :=
  ∀ p ∈ c.Registries, ∃ u ∈ c.Updates, p.1 ∈ u.Registries

theorem slash_getLast (p : GoStr) :
    (PathWithEndingSlash p).getLast? = some '/' := by
  unfold PathWithEndingSlash
  split
  · rfl
  · split
    · assumption
    · exact List.getLast?_concat _

theorem slash_of_ends {q : GoStr} (hq : q.getLast? = some '/') :
    PathWithEndingSlash q = q := by
  by_cases h0 : q = str "/" ∨ q = []
  · rcases h0 with h0 | h0
    · rw [h0]
      decide
    · rw [h0] at hq
      simp at hq
  · unfold PathWithEndingSlash
    rw [if_neg h0, if_pos hq]

theorem pathSlash_idem (p : GoStr) :
    PathWithEndingSlash (PathWithEndingSlash p) = PathWithEndingSlash p :=
  slash_of_ends (slash_getLast p)

theorem dirPart_facts (l : GoStr) (hmem : '/' ∈ l) :
    (dirPart l).getLast? = some '/' ∧ dirPart l ≠ [] := by
  unfold dirPart
  have hne : l.reverse.dropWhile (fun c => c ≠ '/') ≠ [] := by
    intro h
    have hall := List.dropWhile_eq_nil_iff.mp h '/' (by simpa using hmem)
    simp at hall
  constructor
  · have hh : ((l.reverse.dropWhile (fun c => c ≠ '/')).head hne) = '/' := by
      have := List.head_dropWhile_not (fun c => c ≠ '/') l.reverse hne
      simpa using this
    rw [List.getLast?_reverse, List.head?_eq_head hne, hh]
  · simpa using hne

theorem getManifestPath_ne_nil (f t : GoStr) : GetManifestPath f t ≠ [] := by
  unfold GetManifestPath
  split
  · simp [str]
  · split
    · simp [str]
    · rename_i hne
      obtain ⟨hlast, hnonnil⟩ := dirPart_facts ('/' :: f) (by simp)
      intro hcon
      apply hne
      cases hp : dirPart ('/' :: f) using List.reverseRecOn with
      | nil => exact absurd hp hnonnil
      | append_singleton xs x =>
        rw [hp] at hcon hlast
        simp at hcon hlast
        subst hcon
        simpa [str, hlast] using hp

theorem isPrefixOf_self (l : GoStr) : l.isPrefixOf l = true := by
  induction l with
  | nil => rfl
  | cons c cs ih => simp [List.isPrefixOf, ih]

theorem addMissingRegistries_nil (u : Update) : addMissingRegistries [] u = u := by
  simp [addMissingRegistries]

theorem coverScan_nilregs (f t : GoStr) (l : List Update) :
    coverScan f t [] l = (l, l.any (coversManifest f t)) := by
  induction l with
  | nil => rfl
  | cons u rest ih =>
    by_cases hc : coversManifest f t u = true
    · simp [coverScan, hc, addMissingRegistries_nil]
    · simp [coverScan, hc, ih]
theorem applyOverrides_fields (u : Update) (o : UpdateDefaults) :
    (applyOverrides u o).PackageEcosystem = u.PackageEcosystem ∧
    (applyOverrides u o).Directory = u.Directory ∧
    (applyOverrides u o).Directories = u.Directories ∧
    (applyOverrides u o).Groups = u.Groups := by
  unfold applyOverrides
  split <;> split <;> split <;> split <;> split <;> split <;>
    exact ⟨rfl, rfl, rfl, rfl⟩

theorem fixNewUpdateConfig_fields (u : Update) (t : GoStr) :
    (fixNewUpdateConfig u t).PackageEcosystem = u.PackageEcosystem ∧
    (fixNewUpdateConfig u t).Directory = u.Directory ∧
    (fixNewUpdateConfig u t).Directories = u.Directories ∧
    (fixNewUpdateConfig u t).Groups = u.Groups ∧
    (fixNewUpdateConfig u t).Cooldown = u.Cooldown := by
  unfold fixNewUpdateConfig
  split <;> exact ⟨rfl, rfl, rfl, rfl, rfl⟩

theorem createUpdateEntry_fields (t p : GoStr) (tc : ToolConfig) :
    (createUpdateEntry t p tc).PackageEcosystem = t ∧
    (createUpdateEntry t p tc).Directory = p ∧
    (createUpdateEntry t p tc).Directories = [] ∧
    (createUpdateEntry t p tc).Groups = [] := by
  unfold createUpdateEntry
  cases hov : assocFind? tc.UpdateOverrides t with
  | none =>
    obtain ⟨h1, h2, h3, h4, -⟩ := fixNewUpdateConfig_fields
      { PackageEcosystem := t, Directory := p,
        Schedule := tc.UpdateDefaults.Schedule,
        CommitMessage := tc.UpdateDefaults.CommitMessage,
        OpenPullRequestsLimit := tc.UpdateDefaults.OpenPullRequestsLimit,
        RebaseStrategy := tc.UpdateDefaults.RebaseStrategy,
        InsecureExternalCodeExecution := tc.UpdateDefaults.InsecureExternalCodeExecution,
        Cooldown := tc.UpdateDefaults.Cooldown } t
    exact ⟨h1, h2, h3, h4⟩
  | some o =>
    obtain ⟨h1, h2, h3, h4, -⟩ := fixNewUpdateConfig_fields (applyOverrides
      { PackageEcosystem := t, Directory := p,
        Schedule := tc.UpdateDefaults.Schedule,
        CommitMessage := tc.UpdateDefaults.CommitMessage,
        OpenPullRequestsLimit := tc.UpdateDefaults.OpenPullRequestsLimit,
        RebaseStrategy := tc.UpdateDefaults.RebaseStrategy,
        InsecureExternalCodeExecution := tc.UpdateDefaults.InsecureExternalCodeExecution,
        Cooldown := tc.UpdateDefaults.Cooldown } o) t
    obtain ⟨g1, g2, g3, g4⟩ := applyOverrides_fields
      { PackageEcosystem := t, Directory := p,
        Schedule := tc.UpdateDefaults.Schedule,
        CommitMessage := tc.UpdateDefaults.CommitMessage,
        OpenPullRequestsLimit := tc.UpdateDefaults.OpenPullRequestsLimit,
        RebaseStrategy := tc.UpdateDefaults.RebaseStrategy,
        InsecureExternalCodeExecution := tc.UpdateDefaults.InsecureExternalCodeExecution,
        Cooldown := tc.UpdateDefaults.Cooldown } o
    exact ⟨h1.trans g1, h2.trans g2, h3.trans g3, h4.trans g4⟩

theorem createUpdateEntry_cooldown (t p : GoStr) (tc : ToolConfig)
    (hov : tc.UpdateOverrides = []) :
    (createUpdateEntry t p tc).Cooldown = tc.UpdateDefaults.Cooldown := by
  have hnone : assocFind? tc.UpdateOverrides (t : GoStr) = none := by
    rw [hov]; rfl
  unfold createUpdateEntry
  rw [hnone]
  dsimp only
  exact (fixNewUpdateConfig_fields _ t).2.2.2.2

/-- The new entry appended by `ProcessManifest` covers its manifest. -/
theorem coversManifest_new (f t : GoStr) (tc : ToolConfig) (ht : t ≠ []) :
    coversManifest f t (createUpdateEntry t (GetManifestPath f t) tc) = true := by
  obtain ⟨h1, h2, h3, -⟩ := createUpdateEntry_fields t (GetManifestPath f t) tc
  unfold coversManifest
  rw [h1, h2, h3]
  have hd : hasDirectorySet (createUpdateEntry t (GetManifestPath f t) tc) = true := by
    unfold hasDirectorySet
    rw [h2]
    rw [if_pos (getManifestPath_ne_nil f t)]
  rw [hd]
  unfold isPathCovered
  rw [if_pos (getManifestPath_ne_nil f t)]
  rw [pathSlash_idem]
  split <;> simp [ht, isPrefixOf_self]

/-- `ensureStableGroupPrefixes` only replaces the groups map. -/
theorem ensure_groups_only (u : Update) :
    ∃ G, ensureStableGroupPrefixes u = { u with Groups := G } := by
  unfold ensureStableGroupPrefixes
  split
  · exact ⟨u.Groups, rfl⟩
  · split
    · exact ⟨u.Groups, rfl⟩
    · exact ⟨_, rfl⟩

theorem coversManifest_congr (f t : GoStr) {u v : Update}
    (he : v.PackageEcosystem = u.PackageEcosystem) (hd : v.Directory = u.Directory)
    (hds : v.Directories = u.Directories) :
    coversManifest f t v = coversManifest f t u := by
  unfold coversManifest hasDirectorySet
  rw [he, hd, hds]
theorem processManifest_nilreg {tc : ToolConfig} (hreg : tc.Registries = [])
    (lf : GoStr → GoStr) (d : DependabotConfig) (ci : ChangeInfo) (f t : GoStr) :
    ProcessManifest d f t tc ci lf =
      (if f = [] ∨ t = [] then (d, ci)
       else if d.Updates.any (coversManifest f t) then (d, ci)
       else ({ d with Updates := d.Updates ++
            [createUpdateEntry t (GetManifestPath f t) tc] },
         { ci with NewUpdates := ci.NewUpdates ++
            [{ Typ := t, Directory := GetManifestPath f t, File := f }] })) := by
  have hnone : assocFind? tc.Registries (t : GoStr) = none := by
    rw [hreg]; rfl
  unfold ProcessManifest
  by_cases hg : f = [] ∨ t = []
  · rw [if_pos hg, if_pos hg]
  · rw [if_neg hg, if_neg hg]
    rw [hnone]
    dsimp only
    unfold IsManifestCovered
    rw [coverScan_nilregs]
    dsimp only
    split
    · simp
    · simp

theorem processStage_cons (m : GoStr × GoStr) (ms : List (GoStr × GoStr))
    (tc : ToolConfig) (lf : GoStr → GoStr) (d : DependabotConfig) (ci : ChangeInfo) :
    processStage (m :: ms) tc lf d ci =
      processStage ms tc lf (ProcessManifest d m.1 m.2 tc ci lf).1
        (ProcessManifest d m.1 m.2 tc ci lf).2 := by
  unfold processStage
  rw [List.foldl_cons]

theorem processStage_nilreg_shape {tc : ToolConfig} (hreg : tc.Registries = [])
    (lf : GoStr → GoStr) :
    ∀ (ms : List (GoStr × GoStr)) (d : DependabotConfig) (ci : ChangeInfo),
      ∃ ext : List Update,
        (processStage ms tc lf d ci).1.Updates = d.Updates ++ ext ∧
        (processStage ms tc lf d ci).1.Registries = d.Registries ∧
        (processStage ms tc lf d ci).1.Version = d.Version ∧
        (processStage ms tc lf d ci).1.EnableBetaEcoSystems = d.EnableBetaEcoSystems ∧
        (∀ u ∈ ext, ∃ t2 f2 : GoStr, t2 ≠ [] ∧
          u = createUpdateEntry t2 (GetManifestPath f2 t2) tc) := by
  intro ms
  induction ms with
  | nil => exact fun d ci => ⟨[], by simp [processStage], rfl, rfl, rfl, by simp⟩
  | cons m ms ih =>
    intro d ci
    rw [processStage_cons, processManifest_nilreg hreg]
    by_cases hg : m.1 = [] ∨ m.2 = []
    · rw [if_pos hg]
      exact ih d ci
    · rw [if_neg hg]
      by_cases hany : d.Updates.any (coversManifest m.1 m.2) = true
      · rw [if_pos hany]
        exact ih d ci
      · rw [if_neg hany]
        obtain ⟨ext, h1, h2, h3, h4, h5⟩ := ih
          { d with Updates := d.Updates ++
              [createUpdateEntry m.2 (GetManifestPath m.1 m.2) tc] }
          { ci with NewUpdates := ci.NewUpdates ++
              [{ Typ := m.2, Directory := GetManifestPath m.1 m.2, File := m.1 }] }
        refine ⟨[createUpdateEntry m.2 (GetManifestPath m.1 m.2) tc] ++ ext,
          ?_, h2, h3, h4, ?_⟩
        · rw [h1]
          simp
        · intro u hu
          rcases List.mem_append.mp hu with hu | hu
          · push_neg at hg
            simp only [List.mem_singleton] at hu
            exact ⟨m.2, m.1, hg.2, hu⟩
          · exact h5 u hu

theorem coveredIn_append {l : List Update} {f t : GoStr} (ext : List Update)
    (h : coveredIn l f t) : coveredIn (l ++ ext) f t := by
  rcases h with h | h | ⟨u, hu, hc⟩
  · exact Or.inl h
  · exact Or.inr (Or.inl h)
  · exact Or.inr (Or.inr ⟨u, List.mem_append_left ext hu, hc⟩)

theorem processStage_noop {tc : ToolConfig} (hreg : tc.Registries = [])
    (lf : GoStr → GoStr) :
    ∀ (ms : List (GoStr × GoStr)) (d : DependabotConfig) (ci : ChangeInfo),
      (∀ m ∈ ms, coveredIn d.Updates m.1 m.2) →
      processStage ms tc lf d ci = (d, ci) := by
  intro ms
  induction ms with
  | nil => exact fun d ci _ => rfl
  | cons m ms ih =>
    intro d ci hcov
    rw [processStage_cons, processManifest_nilreg hreg]
    have hm := hcov m (List.mem_cons_self m ms)
    have hstep : (if m.1 = [] ∨ m.2 = [] then (d, ci)
        else if d.Updates.any (coversManifest m.1 m.2) then (d, ci)
        else ({ d with Updates := d.Updates ++
            [createUpdateEntry m.2 (GetManifestPath m.1 m.2) tc] },
          { ci with NewUpdates := ci.NewUpdates ++
            [{ Typ := m.2, Directory := GetManifestPath m.1 m.2, File := m.1 }] })) =
        (d, ci) := by
      rcases hm with h | h | ⟨u, hu, hc⟩
      · rw [if_pos (Or.inl h)]
      · rw [if_pos (Or.inr h)]
      · by_cases hg : m.1 = [] ∨ m.2 = []
        · rw [if_pos hg]
        · rw [if_neg hg, if_pos (List.any_eq_true.mpr ⟨u, hu, hc⟩)]
    rw [hstep]
    exact ih d ci (fun m2 hm2 => hcov m2 (List.mem_cons_of_mem m hm2))

theorem processStage_covers {tc : ToolConfig} (hreg : tc.Registries = [])
    (lf : GoStr → GoStr) :
    ∀ (ms : List (GoStr × GoStr)) (d : DependabotConfig) (ci : ChangeInfo),
      ∀ m ∈ ms, coveredIn (processStage ms tc lf d ci).1.Updates m.1 m.2 := by
  intro ms
  induction ms with
  | nil => intro d ci m hm; simp at hm
  | cons m0 ms ih =>
    intro d ci m hm
    rw [processStage_cons]
    rcases List.mem_cons.mp hm with rfl | hm
    · -- the manifest just processed is covered afterwards, and stays covered
      have hcov1 : coveredIn (ProcessManifest d m.1 m.2 tc ci lf).1.Updates m.1 m.2 := by
        rw [processManifest_nilreg hreg]
        by_cases hg : m.1 = [] ∨ m.2 = []
        · rcases hg with hg | hg
          · exact Or.inl hg
          · exact Or.inr (Or.inl hg)
        · rw [if_neg hg]
          by_cases hany : d.Updates.any (coversManifest m.1 m.2) = true
          · rw [if_pos hany]
            obtain ⟨u, hu, hc⟩ := List.any_eq_true.mp hany
            exact Or.inr (Or.inr ⟨u, hu, hc⟩)
          · rw [if_neg hany]
            refine Or.inr (Or.inr ⟨createUpdateEntry m.2 (GetManifestPath m.1 m.2) tc,
              ?_, ?_⟩)
            · simp
            · push_neg at hg
              exact coversManifest_new m.1 m.2 tc hg.2
      obtain ⟨ext, h1, -, -, -, -⟩ := processStage_nilreg_shape hreg lf ms
        (ProcessManifest d m.1 m.2 tc ci lf).1 (ProcessManifest d m.1 m.2 tc ci lf).2
      rw [h1]
      exact coveredIn_append ext hcov1
    · exact ih _ _ m hm
theorem pruneStale_noop (chk : GoStr → Bool) (d : DependabotConfig) (i : ChangeInfo)
    (h : ∀ u ∈ d.Updates, chk u.Directory = true) :
    pruneStaleStage chk d i = (d, i) := by
  unfold pruneStaleStage
  rw [List.filter_eq_self.mpr h,
    List.filter_eq_nil_iff.mpr (fun u hu => by simp [h u hu])]
  simp

theorem fixPass_noop {tc : ToolConfig} {u : Update} (hdir : dirSet u)
    (hcd : cdComplete u) : fixPass tc u = (u, false) := by
  have h1 : fixExistingUpdateConfig u = (u, false) := by
    unfold fixExistingUpdateConfig
    unfold dirSet at hdir
    rw [if_neg (not_not_intro hdir)]
  have h2 : addCooldownToExistingUpdate u tc = (u, false) := by
    unfold addCooldownToExistingUpdate
    unfold cdComplete at hcd
    dsimp only
    rw [if_pos hcd]
  unfold fixPass
  rw [h1]
  dsimp only
  rw [h2]
  rfl

theorem fixStage_noop (tc : ToolConfig) (d : DependabotConfig) (i : ChangeInfo)
    (hdir : ∀ u ∈ d.Updates, dirSet u) (hcd : ∀ u ∈ d.Updates, cdComplete u) :
    fixStage tc d i = (d, i) := by
  unfold fixStage
  rw [List.map_congr_left (fun u hu => fixPass_noop (hdir u hu) (hcd u hu))]
  simp [List.map_map, List.filter_map, Function.comp_def]

theorem ensure_noop {u : Update} (h : stableGroups u) :
    ensureStableGroupPrefixes u = u := by
  unfold ensureStableGroupPrefixes
  by_cases h0 : u.Groups.length = 0
  · rw [if_pos h0]
  · rw [if_neg h0, if_pos (by rw [stableGroups] at h; simp [h])]

theorem groupStage_noop (tc : ToolConfig) (d : DependabotConfig)
    (hgr : (tc.StableGroupPrefixes = none ∨ tc.StableGroupPrefixes = some true) →
      ∀ u ∈ d.Updates, stableGroups u) :
    groupStage tc d = d := by
  unfold groupStage
  by_cases hflag : tc.StableGroupPrefixes = none ∨ tc.StableGroupPrefixes = some true
  · rw [if_pos hflag]
    have hmap : d.Updates.map (fun u =>
        if u.Groups.length > 0 then ensureStableGroupPrefixes u else u) =
        d.Updates.map (fun u => u) := by
      refine List.map_congr_left (fun u hu => ?_)
      by_cases hlen : u.Groups.length > 0
      · rw [if_pos hlen, ensure_noop (hgr hflag u hu)]
      · rw [if_neg hlen]
    rw [hmap, List.map_id']
  · rw [if_neg hflag]

theorem pruneRegs_noop (d : DependabotConfig) (i : ChangeInfo)
    (hrr : regsReferenced d) : pruneRegistriesStage d i = (d, i) := by
  unfold pruneRegistriesStage
  dsimp only
  have hall : ∀ p ∈ d.Registries,
      (d.Updates.any (fun u => u.Registries.contains p.1)) = true := by
    intro p hp
    obtain ⟨u, hu, hmem⟩ := hrr p hp
    exact List.any_eq_true.mpr ⟨u, hu, List.elem_eq_true_of_mem hmem⟩
  rw [List.filter_eq_self.mpr hall,
    List.filter_eq_nil_iff.mpr (fun p hp => by rw [hall p hp]; decide)]
  simp

/-! ## Registry resolution, in general -/

theorem assocFind_cons {α : Type} (q : GoStr × α) (rest : List (GoStr × α))
    (k : GoStr) : assocFind? (q :: rest) k =
      if q.1 = k then some q.2 else assocFind? rest k := by
  unfold assocFind?
  rw [List.find?_cons]
  by_cases hq : q.1 = k
  · rw [if_pos hq, decide_eq_true hq]
    rfl
  · rw [if_neg hq, decide_eq_false hq]

theorem assocFind_isSome_iff {α : Type} (l : List (GoStr × α)) (k : GoStr) :
    (assocFind? l k).isSome ↔ ∃ p ∈ l, p.1 = k := by
  induction l with
  | nil =>
    refine ⟨fun h => (nomatch h), fun hex => ?_⟩
    obtain ⟨p, hp, -⟩ := hex
    exact nomatch hp
  | cons q rest ih =>
    rw [assocFind_cons]
    by_cases hq : q.1 = k
    · rw [if_pos hq]
      exact ⟨fun _ => ⟨q, List.mem_cons_self q rest, hq⟩, fun _ => rfl⟩
    · rw [if_neg hq]
      constructor
      · intro h
        obtain ⟨p, hp, he⟩ := ih.mp h
        exact ⟨p, List.mem_cons_of_mem q hp, he⟩
      · intro hex
        obtain ⟨p, hp, he⟩ := hex
        rcases List.mem_cons.mp hp with rfl | hp
        · exact absurd he hq
        · exact ih.mpr ⟨p, hp, he⟩

theorem assocFind_append_isSome {α : Type} (l l2 : List (GoStr × α)) (k : GoStr)
    (h : (assocFind? l k).isSome) : (assocFind? (l ++ l2) k).isSome := by
  rw [assocFind_isSome_iff] at h ⊢
  obtain ⟨p, hp, he⟩ := h
  exact ⟨p, List.mem_append_left l2 hp, he⟩

theorem assocFind_eq_some_mem {α : Type} {l : List (GoStr × α)} {k : GoStr} {v : α}
    (h : assocFind? l k = some v) : ∃ p ∈ l, p.1 = k ∧ p.2 = v := by
  unfold assocFind? at h
  cases hf : l.find? (fun p => p.1 = k) with
  | none => rw [hf] at h; exact nomatch h
  | some p =>
    rw [hf] at h
    have hm := List.mem_of_find?_eq_some hf
    have hk := List.find?_some hf
    simp only [decide_eq_true_eq] at hk
    exact ⟨p, hm, hk, Option.some.inj h⟩

/-- The names referenced by the registry-resolution loop, as a function of
the manifest alone: the loop's skip condition does not consult the document,
so the referenced-name list is document-independent. -/
def resolvedNames (manifestFile manifestPath : GoStr) (loadFileFn : GoStr → GoStr) :
    List (GoStr × DefaultRegistry) → List GoStr
  | [] => []
  | nd :: rest =>
    if nd.2.URLMatchRequired ∧
        ¬ IsRegistryUsed manifestFile manifestPath nd.2 loadFileFn then
      resolvedNames manifestFile manifestPath loadFileFn rest
    else nd.1 :: resolvedNames manifestFile manifestPath loadFileFn rest

/-- The registry names `ProcessManifest` resolves for a manifest: the
referenced names of its ecosystem's default registries, or none when the
tool configuration has no registries for the ecosystem. -/
def manifestResolvedNames (tc : ToolConfig) (lf : GoStr → GoStr) (f t : GoStr) :
    List GoStr :=
  match assocFind? tc.Registries t with
  | none => []
  | some drs => resolvedNames f (GetManifestPath f t) lf drs

theorem resolveRegistries_cons (f p : GoStr) (lf : GoStr → GoStr)
    (regs : List (GoStr × Registry)) (name : GoStr) (dr : DefaultRegistry)
    (rest : List (GoStr × DefaultRegistry)) :
    resolveRegistries f p lf regs ((name, dr) :: rest) =
      if dr.URLMatchRequired ∧ ¬ IsRegistryUsed f p dr lf then
        resolveRegistries f p lf regs rest
      else
        let pr := if (assocFind? regs name).isSome then
            (regs, ([] : List RegistryInfo))
          else (regs ++ [(name,
                  { Typ := dr.Typ
                    URL := dr.URL
                    Username := dr.Username
                    Password := dr.Password : Registry })],
                [{ Typ := dr.Typ, Name := name : RegistryInfo }])
        let r := resolveRegistries f p lf pr.1 rest
        (name :: r.1, r.2.1, pr.2 ++ r.2.2) := rfl

theorem resolveRegistries_fst (f p : GoStr) (lf : GoStr → GoStr) :
    ∀ (drs : List (GoStr × DefaultRegistry)) (regs : List (GoStr × Registry)),
      (resolveRegistries f p lf regs drs).1 = resolvedNames f p lf drs := by
  intro drs
  induction drs with
  | nil => intro regs; rfl
  | cons nd rest ih =>
    intro regs
    obtain ⟨name, dr⟩ := nd
    rw [resolveRegistries_cons]
    unfold resolvedNames
    by_cases hskip : dr.URLMatchRequired ∧ ¬ IsRegistryUsed f p dr lf
    · rw [if_pos hskip, if_pos hskip]
      exact ih regs
    · rw [if_neg hskip, if_neg hskip]
      dsimp only
      rw [ih]

theorem resolveRegistries_regs_shape (f p : GoStr) (lf : GoStr → GoStr) :
    ∀ (drs : List (GoStr × DefaultRegistry)) (regs : List (GoStr × Registry)),
      ∃ extra, (resolveRegistries f p lf regs drs).2.1 = regs ++ extra := by
  intro drs
  induction drs with
  | nil => exact fun regs => ⟨[], (List.append_nil regs).symm⟩
  | cons nd rest ih =>
    intro regs
    obtain ⟨name, dr⟩ := nd
    rw [resolveRegistries_cons]
    by_cases hskip : dr.URLMatchRequired ∧ ¬ IsRegistryUsed f p dr lf
    · rw [if_pos hskip]
      exact ih regs
    · rw [if_neg hskip]
      dsimp only
      by_cases hpres : (assocFind? regs name).isSome
      · rw [if_pos hpres]
        dsimp only
        exact ih regs
      · rw [if_neg hpres]
        dsimp only
        obtain ⟨extra, hex⟩ := ih (regs ++ [(name,
          { Typ := dr.Typ
            URL := dr.URL
            Username := dr.Username
            Password := dr.Password : Registry })])
        refine ⟨[(name,
          { Typ := dr.Typ
            URL := dr.URL
            Username := dr.Username
            Password := dr.Password : Registry })] ++ extra, ?_⟩
        rw [hex, List.append_assoc]

theorem resolveRegistries_present (f p : GoStr) (lf : GoStr → GoStr) :
    ∀ (drs : List (GoStr × DefaultRegistry)) (regs : List (GoStr × Registry)),
      ∀ n ∈ (resolveRegistries f p lf regs drs).1,
        (assocFind? (resolveRegistries f p lf regs drs).2.1 n).isSome := by
  intro drs
  induction drs with
  | nil => intro regs n hn; simp [resolveRegistries] at hn
  | cons nd rest ih =>
    intro regs n hn
    obtain ⟨name, dr⟩ := nd
    rw [resolveRegistries_cons] at hn ⊢
    by_cases hskip : dr.URLMatchRequired ∧ ¬ IsRegistryUsed f p dr lf
    · rw [if_pos hskip] at hn ⊢
      exact ih regs n hn
    · rw [if_neg hskip] at hn ⊢
      dsimp only at hn ⊢
      by_cases hpres : (assocFind? regs name).isSome
      · rw [if_pos hpres] at hn ⊢
        dsimp only at hn ⊢
        rcases List.mem_cons.mp hn with rfl | hn
        · obtain ⟨extra, hex⟩ := resolveRegistries_regs_shape f p lf rest regs
          rw [hex]
          exact assocFind_append_isSome regs extra n hpres
        · exact ih regs n hn
      · rw [if_neg hpres] at hn ⊢
        dsimp only at hn ⊢
        rcases List.mem_cons.mp hn with rfl | hn
        · obtain ⟨extra, hex⟩ := resolveRegistries_regs_shape f p lf rest
            (regs ++ [(n,
              { Typ := dr.Typ
                URL := dr.URL
                Username := dr.Username
                Password := dr.Password : Registry })])
          rw [hex]
          refine assocFind_append_isSome _ extra n ?_
          rw [assocFind_isSome_iff]
          refine ⟨(n,
            { Typ := dr.Typ
              URL := dr.URL
              Username := dr.Username
              Password := dr.Password : Registry }),
            List.mem_append_right regs (List.mem_singleton.mpr rfl), rfl⟩
        · exact ih _ n hn

theorem resolveRegistries_noop (f p : GoStr) (lf : GoStr → GoStr) :
    ∀ (drs : List (GoStr × DefaultRegistry)) (regs : List (GoStr × Registry)),
      (∀ n ∈ resolvedNames f p lf drs, (assocFind? regs n).isSome) →
      resolveRegistries f p lf regs drs = (resolvedNames f p lf drs, regs, []) := by
  intro drs
  induction drs with
  | nil => intro regs _; rfl
  | cons nd rest ih =>
    intro regs hk
    obtain ⟨name, dr⟩ := nd
    rw [resolveRegistries_cons]
    unfold resolvedNames at hk ⊢
    dsimp only at hk ⊢
    by_cases hskip : dr.URLMatchRequired ∧ ¬ IsRegistryUsed f p dr lf
    · rw [if_pos hskip, if_pos hskip]
      rw [if_pos hskip] at hk
      exact ih regs hk
    · rw [if_neg hskip, if_neg hskip]
      rw [if_neg hskip] at hk
      have hpres : (assocFind? regs name).isSome :=
        hk name (List.mem_cons_self name _)
      rw [if_pos hpres]
      dsimp only
      rw [ih regs (fun n hn => hk n (List.mem_cons_of_mem name hn))]
      rfl

/-! ## Coverage scan, in general -/

theorem addMissingRegistries_noop {names : List GoStr} {u : Update}
    (h : ∀ n ∈ names, n ∈ u.Registries) : addMissingRegistries names u = u := by
  unfold addMissingRegistries
  have hf : names.filter (fun n => !(u.Registries.contains n)) = [] := by
    refine List.filter_eq_nil_iff.mpr (fun n hn => ?_)
    simpa using h n hn
  rw [hf, List.append_nil]

theorem coverScan_first (f t : GoStr) (names : List GoStr) :
    ∀ (pre : List Update) (u : Update) (post : List Update),
      (∀ v ∈ pre, coversManifest f t v = false) → coversManifest f t u = true →
      coverScan f t names (pre ++ u :: post) =
        (pre ++ addMissingRegistries names u :: post, true) := by
  intro pre
  induction pre with
  | nil =>
    intro u post _ hc
    simp [coverScan, hc]
  | cons v pre ih =>
    intro u post hpre hc
    have hv : coversManifest f t v = false := hpre v (List.mem_cons_self v pre)
    have hrec := ih u post (fun w hw => hpre w (List.mem_cons_of_mem v hw)) hc
    simp [coverScan, hv, hrec]

theorem coverScan_snd_false (f t : GoStr) (names : List GoStr) :
    ∀ l : List Update, (coverScan f t names l).2 = false →
      (coverScan f t names l).1 = l := by
  intro l
  induction l with
  | nil => intro _; rfl
  | cons u rest ih =>
    intro h
    by_cases hc : coversManifest f t u = true
    · rw [show coverScan f t names (u :: rest) =
          (addMissingRegistries names u :: rest, true) by simp [coverScan, hc]] at h
      exact absurd h (by simp)
    · have hs : coverScan f t names (u :: rest) =
          (u :: (coverScan f t names rest).1, (coverScan f t names rest).2) := by
        simp [coverScan, hc]
      rw [hs] at h ⊢
      rw [ih h]

theorem coverScan_names (f t : GoStr) (names : List GoStr) :
    ∀ l : List Update, (coverScan f t names l).2 = true →
      ∃ u ∈ (coverScan f t names l).1, ∀ n ∈ names, n ∈ u.Registries := by
  intro l
  induction l with
  | nil => intro h; exact absurd h (by simp [coverScan])
  | cons u rest ih =>
    intro h
    by_cases hc : coversManifest f t u = true
    · have hs : coverScan f t names (u :: rest) =
          (addMissingRegistries names u :: rest, true) := by simp [coverScan, hc]
      rw [hs]
      exact ⟨addMissingRegistries names u, List.mem_cons_self _ _,
        addMissingRegistries_mem names u⟩
    · have hs : coverScan f t names (u :: rest) =
          (u :: (coverScan f t names rest).1, (coverScan f t names rest).2) := by
        simp [coverScan, hc]
      rw [hs] at h ⊢
      obtain ⟨w, hw, hm⟩ := ih h
      exact ⟨w, List.mem_cons_of_mem u hw, hm⟩

/-! ## The registries-only-extended relation between update entries -/

/-- Entry `v` is entry `u` with (only) further registry names appended:
the shape of the mutation `IsManifestCovered` applies to a covering entry. -/
def regExt (u v : Update) : Prop :=
  ∃ R, v = { u with Registries := u.Registries ++ R }

theorem regExt_refl (u : Update) : regExt u u :=
  ⟨[], by rw [List.append_nil]⟩

theorem regExt_trans {u v w : Update} (h1 : regExt u v) (h2 : regExt v w) :
    regExt u w := by
  obtain ⟨R1, rfl⟩ := h1
  obtain ⟨R2, rfl⟩ := h2
  exact ⟨R1 ++ R2, by rw [List.append_assoc]⟩

theorem regExt_dirSet {u v : Update} (h : regExt u v) (hd : dirSet u) : dirSet v := by
  obtain ⟨R, rfl⟩ := h
  exact hd

theorem regExt_cdComplete {u v : Update} (h : regExt u v) (hc : cdComplete u) :
    cdComplete v := by
  obtain ⟨R, rfl⟩ := h
  exact hc

theorem regExt_groups {u v : Update} (h : regExt u v) : v.Groups = u.Groups := by
  obtain ⟨R, rfl⟩ := h
  rfl

theorem regExt_covers (f t : GoStr) {u v : Update} (h : regExt u v) :
    coversManifest f t v = coversManifest f t u := by
  obtain ⟨R, rfl⟩ := h
  rfl

theorem regExt_mem {u v : Update} {n : GoStr} (h : regExt u v)
    (hm : n ∈ u.Registries) : n ∈ v.Registries := by
  obtain ⟨R, rfl⟩ := h
  exact List.mem_append_left R hm

theorem regExt_regSet {u v : Update} {R : List GoStr}
    (h : regExt { u with Registries := R } v) :
    ∃ R2, v = { u with Registries := R2 } := by
  obtain ⟨R2, rfl⟩ := h
  exact ⟨R ++ R2, rfl⟩

theorem coverScan_mem_shape (f t : GoStr) (names : List GoStr) :
    ∀ l : List Update, ∀ v ∈ (coverScan f t names l).1,
      ∃ u ∈ l, regExt u v := by
  intro l
  induction l with
  | nil => intro v hv; exact absurd hv (by simp [coverScan])
  | cons u rest ih =>
    intro v hv
    by_cases hc : coversManifest f t u = true
    · rw [show coverScan f t names (u :: rest) =
          (addMissingRegistries names u :: rest, true) by simp [coverScan, hc]] at hv
      rcases List.mem_cons.mp hv with rfl | hv
      · exact ⟨u, List.mem_cons_self u rest, ⟨_, rfl⟩⟩
      · exact ⟨v, List.mem_cons_of_mem u hv, regExt_refl v⟩
    · rw [show coverScan f t names (u :: rest) =
          (u :: (coverScan f t names rest).1, (coverScan f t names rest).2) by
            simp [coverScan, hc]] at hv
      rcases List.mem_cons.mp hv with rfl | hv
      · exact ⟨v, List.mem_cons_self v rest, regExt_refl v⟩
      · obtain ⟨w, hw, hr⟩ := ih v hv
        exact ⟨w, List.mem_cons_of_mem u hw, hr⟩

theorem coverScan_mem_mono (f t : GoStr) (names : List GoStr) :
    ∀ l : List Update, ∀ u ∈ l,
      ∃ v ∈ (coverScan f t names l).1, regExt u v := by
  intro l
  induction l with
  | nil => intro u hu; exact absurd hu (by simp)
  | cons w rest ih =>
    intro u hu
    by_cases hc : coversManifest f t w = true
    · rw [show coverScan f t names (w :: rest) =
          (addMissingRegistries names w :: rest, true) by simp [coverScan, hc]]
      rcases List.mem_cons.mp hu with rfl | hu
      · exact ⟨addMissingRegistries names u, List.mem_cons_self _ _, ⟨_, rfl⟩⟩
      · exact ⟨u, List.mem_cons_of_mem _ hu, regExt_refl u⟩
    · rw [show coverScan f t names (w :: rest) =
          (w :: (coverScan f t names rest).1, (coverScan f t names rest).2) by
            simp [coverScan, hc]]
      rcases List.mem_cons.mp hu with rfl | hu
      · exact ⟨u, List.mem_cons_self _ _, regExt_refl u⟩
      · obtain ⟨v, hv, hr⟩ := ih u hu
        exact ⟨v, List.mem_cons_of_mem _ hv, hr⟩

/-! ## Override cooldowns -/

theorem applyOverrides_cooldown_of (u : Update) (o : UpdateDefaults)
    (hc : o.Cooldown.SemverMajorDays ≠ 0 ∨ o.Cooldown.SemverMinorDays ≠ 0 ∨
      o.Cooldown.SemverPatchDays ≠ 0 ∨ o.Cooldown.DefaultDays ≠ 0 ∨
      o.Cooldown.Include.length > 0 ∨ o.Cooldown.Exclude.length > 0) :
    (applyOverrides u o).Cooldown = o.Cooldown := by
  unfold applyOverrides
  split <;> split <;> split <;> split <;> split <;> dsimp only

theorem applyOverrides_cooldown_not (u : Update) (o : UpdateDefaults)
    (hc : ¬ (o.Cooldown.SemverMajorDays ≠ 0 ∨ o.Cooldown.SemverMinorDays ≠ 0 ∨
      o.Cooldown.SemverPatchDays ≠ 0 ∨ o.Cooldown.DefaultDays ≠ 0 ∨
      o.Cooldown.Include.length > 0 ∨ o.Cooldown.Exclude.length > 0)) :
    (applyOverrides u o).Cooldown = u.Cooldown := by
  unfold applyOverrides
  split <;> split <;> split <;> split <;> split <;> dsimp only

theorem createUpdateEntry_cdComplete_gen (t p : GoStr) (tc : ToolConfig)
    (hcd0 : tc.UpdateDefaults.Cooldown.SemverMajorDays ≠ 0 ∧
      tc.UpdateDefaults.Cooldown.SemverMinorDays ≠ 0 ∧
      tc.UpdateDefaults.Cooldown.SemverPatchDays ≠ 0 ∧
      tc.UpdateDefaults.Cooldown.DefaultDays ≠ 0)
    (hovcd : ∀ q ∈ tc.UpdateOverrides,
      (q.2.Cooldown.SemverMajorDays ≠ 0 ∨ q.2.Cooldown.SemverMinorDays ≠ 0 ∨
       q.2.Cooldown.SemverPatchDays ≠ 0 ∨ q.2.Cooldown.DefaultDays ≠ 0 ∨
       q.2.Cooldown.Include.length > 0 ∨ q.2.Cooldown.Exclude.length > 0) →
      (q.2.Cooldown.SemverMajorDays ≠ 0 ∧ q.2.Cooldown.SemverMinorDays ≠ 0 ∧
       q.2.Cooldown.SemverPatchDays ≠ 0 ∧ q.2.Cooldown.DefaultDays ≠ 0)) :
    cdComplete (createUpdateEntry t p tc) := by
  unfold createUpdateEntry
  dsimp only
  cases hov : assocFind? tc.UpdateOverrides t with
  | none =>
    unfold cdComplete
    rw [(fixNewUpdateConfig_fields _ t).2.2.2.2]
    exact hcd0
  | some o =>
    obtain ⟨q, hq, -, hqv⟩ := assocFind_eq_some_mem hov
    unfold cdComplete
    rw [(fixNewUpdateConfig_fields _ t).2.2.2.2]
    by_cases hc : o.Cooldown.SemverMajorDays ≠ 0 ∨ o.Cooldown.SemverMinorDays ≠ 0 ∨
        o.Cooldown.SemverPatchDays ≠ 0 ∨ o.Cooldown.DefaultDays ≠ 0 ∨
        o.Cooldown.Include.length > 0 ∨ o.Cooldown.Exclude.length > 0
    · rw [applyOverrides_cooldown_of _ o hc]
      have hres := hovcd q hq
      rw [hqv] at hres
      exact hres hc
    · rw [applyOverrides_cooldown_not _ o hc]
      exact hcd0

/-! ## `ProcessManifest`, with default registries -/

theorem processManifest_eq (d : DependabotConfig) (f t : GoStr) (tc : ToolConfig)
    (ci : ChangeInfo) (lf : GoStr → GoStr) :
    ProcessManifest d f t tc ci lf =
      if f = [] ∨ t = [] then (d, ci)
      else
        let rr := match assocFind? tc.Registries t with
          | none => (([] : List GoStr), d.Registries, ([] : List RegistryInfo))
          | some drs => resolveRegistries f (GetManifestPath f t) lf d.Registries drs
        let sc := coverScan f t rr.1 d.Updates
        if sc.2 then
          ({ d with Registries := rr.2.1, Updates := sc.1 },
           { ci with NewRegistries := ci.NewRegistries ++ rr.2.2 })
        else
          ({ d with Registries := rr.2.1, Updates := sc.1 ++
              [if rr.1.length > 0 then
                { createUpdateEntry t (GetManifestPath f t) tc with Registries := rr.1 }
               else createUpdateEntry t (GetManifestPath f t) tc] },
           { ci with
              NewRegistries := ci.NewRegistries ++ rr.2.2
              NewUpdates := ci.NewUpdates ++
                [{ Typ := t, Directory := GetManifestPath f t, File := f }] }) := rfl

theorem processManifest_mem_shape (d : DependabotConfig) (f t : GoStr)
    (tc : ToolConfig) (ci : ChangeInfo) (lf : GoStr → GoStr) :
    ∀ v ∈ (ProcessManifest d f t tc ci lf).1.Updates,
      (∃ u ∈ d.Updates, regExt u v) ∨
      (t ≠ [] ∧ ∃ R, v = { createUpdateEntry t (GetManifestPath f t) tc with
        Registries := R }) := by
  intro v hv
  rw [processManifest_eq] at hv
  by_cases hg : f = [] ∨ t = []
  · rw [if_pos hg] at hv
    exact Or.inl ⟨v, hv, regExt_refl v⟩
  · rw [if_neg hg] at hv
    dsimp only at hv
    push_neg at hg
    cases hm : assocFind? tc.Registries t with
    | none =>
      rw [hm] at hv
      dsimp only at hv
      cases hsc : (coverScan f t [] d.Updates).2 with
      | true =>
        rw [hsc, if_pos rfl] at hv
        exact Or.inl (coverScan_mem_shape f t [] d.Updates v hv)
      | false =>
        rw [hsc, if_neg (by simp)] at hv
        rcases List.mem_append.mp hv with hv | hv
        · exact Or.inl (coverScan_mem_shape f t [] d.Updates v hv)
        · rw [List.mem_singleton] at hv
          refine Or.inr ⟨hg.2, ?_⟩
          rw [if_neg (by simp)] at hv
          refine ⟨(createUpdateEntry t (GetManifestPath f t) tc).Registries, ?_⟩
          rw [hv]
    | some drs =>
      rw [hm] at hv
      dsimp only at hv
      cases hsc : (coverScan f t
          (resolveRegistries f (GetManifestPath f t) lf d.Registries drs).1
          d.Updates).2 with
      | true =>
        rw [hsc, if_pos rfl] at hv
        exact Or.inl (coverScan_mem_shape f t _ d.Updates v hv)
      | false =>
        rw [hsc, if_neg (by simp)] at hv
        rcases List.mem_append.mp hv with hv | hv
        · exact Or.inl (coverScan_mem_shape f t _ d.Updates v hv)
        · rw [List.mem_singleton] at hv
          refine Or.inr ⟨hg.2, ?_⟩
          by_cases hlen : (resolveRegistries f (GetManifestPath f t) lf
              d.Registries drs).1.length > 0
          · rw [if_pos hlen] at hv
            exact ⟨_, hv⟩
          · rw [if_neg hlen] at hv
            refine ⟨(createUpdateEntry t (GetManifestPath f t) tc).Registries, ?_⟩
            rw [hv]

theorem processManifest_mem_mono (d : DependabotConfig) (f t : GoStr)
    (tc : ToolConfig) (ci : ChangeInfo) (lf : GoStr → GoStr) :
    ∀ u ∈ d.Updates, ∃ v ∈ (ProcessManifest d f t tc ci lf).1.Updates, regExt u v := by
  intro u hu
  rw [processManifest_eq]
  by_cases hg : f = [] ∨ t = []
  · rw [if_pos hg]
    exact ⟨u, hu, regExt_refl u⟩
  · rw [if_neg hg]
    dsimp only
    cases hm : assocFind? tc.Registries t with
    | none =>
      dsimp only
      cases hsc : (coverScan f t [] d.Updates).2 with
      | true =>
        rw [if_pos rfl]
        exact coverScan_mem_mono f t [] d.Updates u hu
      | false =>
        rw [if_neg (by simp)]
        obtain ⟨v, hv, hr⟩ := coverScan_mem_mono f t [] d.Updates u hu
        exact ⟨v, List.mem_append_left _ hv, hr⟩
    | some drs =>
      dsimp only
      cases hsc : (coverScan f t
          (resolveRegistries f (GetManifestPath f t) lf d.Registries drs).1
          d.Updates).2 with
      | true =>
        rw [if_pos rfl]
        exact coverScan_mem_mono f t _ d.Updates u hu
      | false =>
        rw [if_neg (by simp)]
        obtain ⟨v, hv, hr⟩ := coverScan_mem_mono f t
          (resolveRegistries f (GetManifestPath f t) lf d.Registries drs).1
          d.Updates u hu
        exact ⟨v, List.mem_append_left _ hv, hr⟩

theorem processManifest_regs_shape (d : DependabotConfig) (f t : GoStr)
    (tc : ToolConfig) (ci : ChangeInfo) (lf : GoStr → GoStr) :
    ∃ extra, (ProcessManifest d f t tc ci lf).1.Registries = d.Registries ++ extra := by
  rw [processManifest_eq]
  by_cases hg : f = [] ∨ t = []
  · rw [if_pos hg]
    exact ⟨[], (List.append_nil d.Registries).symm⟩
  · rw [if_neg hg]
    dsimp only
    cases hm : assocFind? tc.Registries t with
    | none =>
      dsimp only
      cases hsc : (coverScan f t [] d.Updates).2 with
      | true =>
        rw [if_pos rfl]
        exact ⟨[], (List.append_nil d.Registries).symm⟩
      | false =>
        rw [if_neg (by simp)]
        exact ⟨[], (List.append_nil d.Registries).symm⟩
    | some drs =>
      dsimp only
      obtain ⟨extra, hex⟩ :=
        resolveRegistries_regs_shape f (GetManifestPath f t) lf drs d.Registries
      cases hsc : (coverScan f t
          (resolveRegistries f (GetManifestPath f t) lf d.Registries drs).1
          d.Updates).2 with
      | true =>
        rw [if_pos rfl]
        exact ⟨extra, hex⟩
      | false =>
        rw [if_neg (by simp)]
        exact ⟨extra, hex⟩

theorem processManifest_names (d : DependabotConfig) {f t : GoStr}
    (tc : ToolConfig) (ci : ChangeInfo) (lf : GoStr → GoStr)
    (hf : f ≠ []) (ht : t ≠ []) :
    ∀ n ∈ manifestResolvedNames tc lf f t,
      (assocFind? (ProcessManifest d f t tc ci lf).1.Registries n).isSome ∧
      ∃ u ∈ (ProcessManifest d f t tc ci lf).1.Updates, n ∈ u.Registries := by
  intro n hn
  rw [processManifest_eq]
  rw [if_neg (by simp [hf, ht])]
  dsimp only
  unfold manifestResolvedNames at hn
  cases hm : assocFind? tc.Registries t with
  | none =>
    rw [hm] at hn
    exact absurd hn (by simp)
  | some drs =>
    rw [hm] at hn
    dsimp only at hn ⊢
    have hfst : (resolveRegistries f (GetManifestPath f t) lf d.Registries drs).1 =
        resolvedNames f (GetManifestPath f t) lf drs :=
      resolveRegistries_fst f (GetManifestPath f t) lf drs d.Registries
    have hkey : (assocFind?
        (resolveRegistries f (GetManifestPath f t) lf d.Registries drs).2.1
        n).isSome := by
      refine resolveRegistries_present f (GetManifestPath f t) lf drs d.Registries n ?_
      rw [hfst]
      exact hn
    cases hsc : (coverScan f t
        (resolveRegistries f (GetManifestPath f t) lf d.Registries drs).1
        d.Updates).2 with
    | true =>
      rw [if_pos rfl]
      refine ⟨hkey, ?_⟩
      obtain ⟨u, hu, hmem⟩ := coverScan_names f t _ d.Updates hsc
      refine ⟨u, hu, hmem n ?_⟩
      rw [hfst]
      exact hn
    | false =>
      rw [if_neg (by simp)]
      refine ⟨hkey, ?_⟩
      by_cases hlen :
          (resolveRegistries f (GetManifestPath f t) lf d.Registries drs).1.length > 0
      · rw [if_pos hlen]
        refine ⟨{ createUpdateEntry t (GetManifestPath f t) tc with
            Registries := (resolveRegistries f (GetManifestPath f t) lf
              d.Registries drs).1 }, ?_, ?_⟩
        · exact List.mem_append_right _ (List.mem_singleton.mpr rfl)
        · rw [hfst]
          exact hn
      · exfalso
        have hz : (resolveRegistries f (GetManifestPath f t) lf
            d.Registries drs).1.length = 0 := by omega
        rw [hfst] at hz
        rw [List.length_eq_zero] at hz
        rw [hz] at hn
        exact absurd hn (by simp)

theorem processManifest_noop_gen (d : DependabotConfig) (f t : GoStr)
    (tc : ToolConfig) (ci : ChangeInfo) (lf : GoStr → GoStr)
    (h : f = [] ∨ t = [] ∨
      ((∀ n ∈ manifestResolvedNames tc lf f t,
          (assocFind? d.Registries n).isSome) ∧
       ∃ pre u post, d.Updates = pre ++ u :: post ∧
         (∀ v ∈ pre, coversManifest f t v = false) ∧
         coversManifest f t u = true ∧
         (∀ n ∈ manifestResolvedNames tc lf f t, n ∈ u.Registries))) :
    ProcessManifest d f t tc ci lf = (d, ci) := by
  rw [processManifest_eq]
  by_cases hg : f = [] ∨ t = []
  · rw [if_pos hg]
  · rw [if_neg hg]
    dsimp only
    rcases h with h | h | h
    · exact absurd (Or.inl h) hg
    · exact absurd (Or.inr h) hg
    obtain ⟨hkeys, pre, u, post, hdec, hpre, hcov, hmem⟩ := h
    unfold manifestResolvedNames at hkeys hmem
    cases hm : assocFind? tc.Registries t with
    | none =>
      dsimp only
      rw [hm] at hmem
      have hscan : coverScan f t [] d.Updates = (d.Updates, true) := by
        rw [hdec, coverScan_first f t [] pre u post hpre hcov,
          addMissingRegistries_noop hmem]
      rw [hscan]
      rw [if_pos rfl]
      refine Prod.ext rfl ?_
      dsimp only
      rw [List.append_nil]
    | some drs =>
      dsimp only
      rw [hm] at hkeys hmem
      have hres : resolveRegistries f (GetManifestPath f t) lf d.Registries drs =
          (resolvedNames f (GetManifestPath f t) lf drs, d.Registries, []) :=
        resolveRegistries_noop f (GetManifestPath f t) lf drs d.Registries hkeys
      rw [hres]
      dsimp only
      have hscan : coverScan f t (resolvedNames f (GetManifestPath f t) lf drs)
          d.Updates = (d.Updates, true) := by
        rw [hdec, coverScan_first f t _ pre u post hpre hcov,
          addMissingRegistries_noop hmem]
      rw [hscan]
      rw [if_pos rfl]
      refine Prod.ext rfl ?_
      dsimp only
      rw [List.append_nil]

theorem processStage_mem_shape (tc : ToolConfig) (lf : GoStr → GoStr) :
    ∀ (ms : List (GoStr × GoStr)) (d : DependabotConfig) (ci : ChangeInfo),
      ∀ v ∈ (processStage ms tc lf d ci).1.Updates,
        (∃ u ∈ d.Updates, regExt u v) ∨
        (∃ t2 f2 R, t2 ≠ [] ∧
          v = { createUpdateEntry t2 (GetManifestPath f2 t2) tc with
            Registries := R }) := by
  intro ms
  induction ms with
  | nil =>
    intro d ci v hv
    exact Or.inl ⟨v, hv, regExt_refl v⟩
  | cons m ms ih =>
    intro d ci v hv
    rw [processStage_cons] at hv
    rcases ih _ _ v hv with ⟨u1, hu1, hr1⟩ | hshape
    · rcases processManifest_mem_shape d m.1 m.2 tc ci lf u1 hu1 with
        ⟨u, hu, hr⟩ | ⟨ht, R, hEq⟩
      · exact Or.inl ⟨u, hu, regExt_trans hr hr1⟩
      · subst hEq
        obtain ⟨R2, hv2⟩ := regExt_regSet hr1
        exact Or.inr ⟨m.2, m.1, R2, ht, hv2⟩
    · exact Or.inr hshape

theorem processStage_mem_mono (tc : ToolConfig) (lf : GoStr → GoStr) :
    ∀ (ms : List (GoStr × GoStr)) (d : DependabotConfig) (ci : ChangeInfo),
      ∀ u ∈ d.Updates,
        ∃ v ∈ (processStage ms tc lf d ci).1.Updates, regExt u v := by
  intro ms
  induction ms with
  | nil =>
    intro d ci u hu
    exact ⟨u, hu, regExt_refl u⟩
  | cons m ms ih =>
    intro d ci u hu
    rw [processStage_cons]
    obtain ⟨v1, hv1, hr1⟩ := processManifest_mem_mono d m.1 m.2 tc ci lf u hu
    obtain ⟨v, hv, hr⟩ := ih _ _ v1 hv1
    exact ⟨v, hv, regExt_trans hr1 hr⟩

theorem processStage_regs_shape (tc : ToolConfig) (lf : GoStr → GoStr) :
    ∀ (ms : List (GoStr × GoStr)) (d : DependabotConfig) (ci : ChangeInfo),
      ∃ extra, (processStage ms tc lf d ci).1.Registries = d.Registries ++ extra := by
  intro ms
  induction ms with
  | nil =>
    intro d ci
    exact ⟨[], (List.append_nil d.Registries).symm⟩
  | cons m ms ih =>
    intro d ci
    rw [processStage_cons]
    obtain ⟨e1, he1⟩ := processManifest_regs_shape d m.1 m.2 tc ci lf
    obtain ⟨e2, he2⟩ := ih (ProcessManifest d m.1 m.2 tc ci lf).1
      (ProcessManifest d m.1 m.2 tc ci lf).2
    exact ⟨e1 ++ e2, by rw [he2, he1, List.append_assoc]⟩

theorem processStage_names (tc : ToolConfig) (lf : GoStr → GoStr) :
    ∀ (ms : List (GoStr × GoStr)) (d : DependabotConfig) (ci : ChangeInfo),
      ∀ m ∈ ms, m.1 ≠ [] → m.2 ≠ [] →
        ∀ n ∈ manifestResolvedNames tc lf m.1 m.2,
          (assocFind? (processStage ms tc lf d ci).1.Registries n).isSome ∧
          ∃ u ∈ (processStage ms tc lf d ci).1.Updates, n ∈ u.Registries := by
  intro ms
  induction ms with
  | nil =>
    intro d ci m hm
    exact absurd hm (by simp)
  | cons m0 ms ih =>
    intro d ci m hm hf ht n hn
    rw [processStage_cons]
    rcases List.mem_cons.mp hm with rfl | hm
    · obtain ⟨hkey, u, hu, hmem⟩ := processManifest_names d tc ci lf hf ht n hn
      constructor
      · obtain ⟨extra, hex⟩ := processStage_regs_shape tc lf ms
          (ProcessManifest d m.1 m.2 tc ci lf).1
          (ProcessManifest d m.1 m.2 tc ci lf).2
        rw [hex]
        exact assocFind_append_isSome _ extra n hkey
      · obtain ⟨v, hv, hr⟩ := processStage_mem_mono tc lf ms
          (ProcessManifest d m.1 m.2 tc ci lf).1
          (ProcessManifest d m.1 m.2 tc ci lf).2 u hu
        exact ⟨v, hv, regExt_mem hr hmem⟩
    · exact ih _ _ m hm hf ht n hn

theorem processStage_noop_gen (tc : ToolConfig) (lf : GoStr → GoStr) :
    ∀ (ms : List (GoStr × GoStr)) (d : DependabotConfig) (ci : ChangeInfo),
      (∀ m ∈ ms, m.1 = [] ∨ m.2 = [] ∨
        ((∀ n ∈ manifestResolvedNames tc lf m.1 m.2,
            (assocFind? d.Registries n).isSome) ∧
         ∃ pre u post, d.Updates = pre ++ u :: post ∧
           (∀ v ∈ pre, coversManifest m.1 m.2 v = false) ∧
           coversManifest m.1 m.2 u = true ∧
           (∀ n ∈ manifestResolvedNames tc lf m.1 m.2, n ∈ u.Registries))) →
      processStage ms tc lf d ci = (d, ci) := by
  intro ms
  induction ms with
  | nil => exact fun d ci _ => rfl
  | cons m ms ih =>
    intro d ci hcov
    rw [processStage_cons,
      processManifest_noop_gen d m.1 m.2 tc ci lf (hcov m (List.mem_cons_self m ms))]
    exact ih d ci (fun m2 hm2 => hcov m2 (List.mem_cons_of_mem m hm2))


/-- A reconciliation run on a document satisfying all the invariants of a
previous run — every entry's directory accepted by the checker, directories
and cooldowns set, groups stably prefixed, every registry referenced, every
registry name resolved for a manifest already a key of the document's
registry map, and every manifest's first covering entry already referencing
those names — changes nothing and reports no changes. -/
theorem updateConfig_noop (tc : ToolConfig) (lf : GoStr → GoStr)
    (chk : GoStr → Bool) (ms : List (GoStr × GoStr)) (d : DependabotConfig)
    (hchk : ∀ u ∈ d.Updates, chk u.Directory = true)
    (hdir : ∀ u ∈ d.Updates, dirSet u)
    (hcd : ∀ u ∈ d.Updates, cdComplete u)
    (hgr : (tc.StableGroupPrefixes = none ∨ tc.StableGroupPrefixes = some true) →
      ∀ u ∈ d.Updates, stableGroups u)
    (hcov : ∀ m ∈ ms, m.1 = [] ∨ m.2 = [] ∨
      ((∀ n ∈ manifestResolvedNames tc lf m.1 m.2,
          (assocFind? d.Registries n).isSome) ∧
       ∃ pre u post, d.Updates = pre ++ u :: post ∧
         (∀ v ∈ pre, coversManifest m.1 m.2 v = false) ∧
         coversManifest m.1 m.2 u = true ∧
         (∀ n ∈ manifestResolvedNames tc lf m.1 m.2, n ∈ u.Registries)))
    (hrr : regsReferenced d) :
    UpdateConfig d ms tc lf chk = (d, emptyChangeInfo) := by
  unfold UpdateConfig
  rw [pruneStale_noop chk d emptyChangeInfo hchk]
  dsimp only
  rw [fixStage_noop tc d emptyChangeInfo hdir hcd]
  dsimp only
  rw [processStage_noop_gen tc lf (List.insertionSort manifestLeP ms) d emptyChangeInfo
    (fun m hm => hcov m ((List.perm_insertionSort manifestLeP ms).mem_iff.mp hm))]
  dsimp only
  rw [groupStage_noop tc d hgr]
  exact pruneRegs_noop d emptyChangeInfo hrr
set_option maxRecDepth 40000 in
theorem pad2_facts : ∀ n, n < 100 → ((pad2 n).length = 2 ∧ (pad2 n).all Char.isDigit) := by
  decide

set_option maxRecDepth 40000 in
theorem pad2_inj : ∀ n, n < 100 → ∀ m, m < 100 → pad2 n = pad2 m → n = m := by
  decide

theorem parsePrefixed_pad2 {i : Nat} (hi : i + 1 < 100) (base : GoStr)
    (hb : base ≠ []) (hnl : '\n' ∉ base) :
    parsePrefixed (pad2 (i + 1) ++ '_' :: base) = some (pad2 (i + 1), base) := by
  obtain ⟨hlen, hdig⟩ := pad2_facts (i + 1) hi
  cases hval : pad2 (i + 1) with
  | nil => rw [hval] at hlen; simp at hlen
  | cons c1 r1 =>
    cases r1 with
    | nil => rw [hval] at hlen; simp at hlen
    | cons c2 r2 =>
      cases r2 with
      | cons c3 r3 => rw [hval] at hlen; simp at hlen
      | nil =>
        rw [hval] at hdig
        simp only [List.all_cons, List.all_nil, Bool.and_eq_true] at hdig
        show parsePrefixed (c1 :: c2 :: '_' :: base) = some ([c1, c2], base)
        have hred : parsePrefixed (c1 :: c2 :: '_' :: base) =
            (if c1.isDigit = true ∧ c2.isDigit = true ∧ base ≠ [] ∧
                ¬ base.contains '
' = true
             then some ([c1, c2], base) else none) := rfl
        rw [hred, if_pos ⟨hdig.1, hdig.2.1, hb, by simpa using hnl⟩]

theorem parse_some_props {s a b : GoStr} (h : parsePrefixed s = some (a, b)) :
    b ≠ [] ∧ '\n' ∉ b := by
  unfold parsePrefixed at h
  split at h
  · split at h
    · rename_i hcond
      simp only [Option.some.injEq, Prod.mk.injEq] at h
      obtain ⟨-, rfl⟩ := h
      exact ⟨hcond.2.2.1, by simpa using hcond.2.2.2⟩
    · simp at h
  · simp at h

theorem baseNameOf_props {n : GoStr} (hn : n ≠ [] ∧ '\n' ∉ n) :
    baseNameOf n ≠ [] ∧ '\n' ∉ baseNameOf n := by
  unfold baseNameOf
  cases hp : parsePrefixed n with
  | none => exact hn
  | some pr =>
    obtain ⟨a, b⟩ := pr
    exact parse_some_props hp

theorem map_fst_pairs {α β γ : Type} (l : List α) (f : α → β) (g : α → γ) :
    (l.map (fun p => (f p, g p))).map (fun q => q.1) = l.map f := by
  rw [List.map_map]
  rfl

theorem enum_map_fst_comp {γ : Type} (l : List GoStr) (g : ℕ → γ) :
    l.enum.map (fun p => g p.1) = (List.range l.length).map g := by
  have h1 : l.enum.map (fun p => g p.1) = (l.enum.map Prod.fst).map g := by
    rw [List.map_map]
    rfl
  rw [h1, List.enum_map_fst]

theorem dupB_eq_false_of_nodup {l : List GoStr} (h : l.Nodup) : dupB l = false := by
  induction l with
  | nil => rfl
  | cons x xs ih =>
    rw [List.nodup_cons] at h
    unfold dupB
    rw [ih h.2]
    simp [h.1]

theorem stable_names_of_pairs :
    ∀ l : List (ℕ × GoStr),
      (∀ p ∈ l, p.1 + 1 < 100) →
      (∀ p ∈ l, baseNameOf p.2 ≠ [] ∧ '\n' ∉ baseNameOf p.2) →
      ((l.map (fun p => pad2 (p.1 + 1) ++ '_' :: baseNameOf p.2)).any
         (fun n => (parsePrefixed n).isNone) = false) ∧
      prefixesOf (l.map (fun p => pad2 (p.1 + 1) ++ '_' :: baseNameOf p.2)) =
        l.map (fun p => pad2 (p.1 + 1)) := by
  intro l
  induction l with
  | nil => exact fun _ _ => ⟨rfl, rfl⟩
  | cons p rest ih =>
    intro hidx hbase
    have hp := parsePrefixed_pad2 (hidx p (List.mem_cons_self p rest))
      (baseNameOf p.2) (hbase p (List.mem_cons_self p rest)).1
      (hbase p (List.mem_cons_self p rest)).2
    obtain ⟨ih1, ih2⟩ := ih (fun q hq => hidx q (List.mem_cons_of_mem p hq))
      (fun q hq => hbase q (List.mem_cons_of_mem p hq))
    constructor
    · simp only [List.map_cons, List.any_cons, Bool.or_eq_false_iff]
      exact ⟨by rw [hp]; rfl, ih1⟩
    · simp only [List.map_cons]
      unfold prefixesOf at ih2 ⊢
      rw [List.filterMap_cons, hp]
      simp only [Option.map_some']
      rw [ih2]

/-- After a renaming pass, the group names are stably prefixed, provided
there are at most 99 groups and every base name is non-empty and free of
newlines. -/
theorem stable_after_ensure {u : Update} (hlen : u.Groups.length ≤ 99)
    (hn : ∀ n ∈ u.Groups.map (fun p => p.1), n ≠ [] ∧ '\n' ∉ n) :
    stableGroups (ensureStableGroupPrefixes u) := by
  unfold ensureStableGroupPrefixes
  by_cases h0 : u.Groups.length = 0
  · rw [if_pos h0]
    have hnil : u.Groups = [] := List.length_eq_zero.mp h0
    unfold stableGroups
    rw [hnil]
    rfl
  · by_cases h1 : ¬ needsRenamingB (u.Groups.map (fun p => p.1)) = true
    · rw [if_neg h0, if_pos h1]
      unfold stableGroups
      exact Bool.eq_false_iff.mpr h1
    · rw [if_neg h0, if_neg h1]
      unfold stableGroups
      have hkeys :
          (((List.insertionSort strLeP (u.Groups.map (fun p => p.1))).enum.map (fun p =>
            (pad2 (p.1 + 1) ++ '_' :: baseNameOf p.2,
             (assocFind? u.Groups p.2).getD ({} : Group)))).map (fun q => q.1)) =
          ((List.insertionSort strLeP (u.Groups.map (fun p => p.1))).enum.map (fun p =>
            pad2 (p.1 + 1) ++ '_' :: baseNameOf p.2)) :=
        map_fst_pairs _ _ _
      rw [hkeys]
      have hsortlen : (List.insertionSort strLeP (u.Groups.map (fun p => p.1))).length =
          u.Groups.length :=
        (List.perm_insertionSort strLeP _).length_eq.trans (by simp)
      have hidx : ∀ p ∈ (List.insertionSort strLeP
          (u.Groups.map (fun p => p.1))).enum, p.1 + 1 < 100 := by
        intro p hp
        have h1m : p.1 ∈ (List.insertionSort strLeP
            (u.Groups.map (fun p => p.1))).enum.map Prod.fst :=
          List.mem_map_of_mem Prod.fst hp
        rw [List.enum_map_fst] at h1m
        have := List.mem_range.mp h1m
        rw [hsortlen] at this
        omega
      have hbase : ∀ p ∈ (List.insertionSort strLeP
          (u.Groups.map (fun p => p.1))).enum,
          baseNameOf p.2 ≠ [] ∧ '\n' ∉ baseNameOf p.2 := by
        intro p hp
        have h2m : p.2 ∈ (List.insertionSort strLeP
            (u.Groups.map (fun p => p.1))).enum.map Prod.snd :=
          List.mem_map_of_mem Prod.snd hp
        rw [List.enum_map_snd] at h2m
        have h3m : p.2 ∈ u.Groups.map (fun p => p.1) :=
          (List.perm_insertionSort strLeP _).mem_iff.mp h2m
        exact baseNameOf_props (hn p.2 h3m)
      obtain ⟨hparse, hprefix⟩ := stable_names_of_pairs _ hidx hbase
      unfold needsRenamingB
      rw [hparse, hprefix]
      have hpref2 : (List.insertionSort strLeP
          (u.Groups.map (fun p => p.1))).enum.map (fun p => pad2 (p.1 + 1)) =
          (List.range (List.insertionSort strLeP
            (u.Groups.map (fun p => p.1))).length).map (fun i => pad2 (i + 1)) :=
        enum_map_fst_comp (List.insertionSort strLeP (u.Groups.map (fun p => p.1)))
          (fun i => pad2 (i + 1))
      rw [hpref2]
      have hnodup : ((List.range (List.insertionSort strLeP
          (u.Groups.map (fun p => p.1))).length).map (fun i => pad2 (i + 1))).Nodup := by
        refine List.Nodup.map_on ?_ (List.nodup_range _)
        intro x hx y hy hxy
        rw [List.mem_range, hsortlen] at hx hy
        have hx1 : x + 1 < 100 := by omega
        have hy1 : y + 1 < 100 := by omega
        have := pad2_inj (x + 1) hx1 (y + 1) hy1 hxy
        omega
      rw [dupB_eq_false_of_nodup hnodup]
      rfl
theorem fixPass_fst (tc : ToolConfig) (u : Update) :
    (fixPass tc u).1 = (addCooldownToExistingUpdate (fixExistingUpdateConfig u).1 tc).1 := rfl

theorem addCooldown_fields (v : Update) (tc : ToolConfig) :
    (addCooldownToExistingUpdate v tc).1.PackageEcosystem = v.PackageEcosystem ∧
    (addCooldownToExistingUpdate v tc).1.Directory = v.Directory ∧
    (addCooldownToExistingUpdate v tc).1.Directories = v.Directories ∧
    (addCooldownToExistingUpdate v tc).1.Groups = v.Groups := by
  unfold addCooldownToExistingUpdate
  dsimp only
  split <;> exact ⟨rfl, rfl, rfl, rfl⟩

theorem addCooldown_complete (v : Update) (tc : ToolConfig)
    (hcd0 : tc.UpdateDefaults.Cooldown.SemverMajorDays ≠ 0 ∧
      tc.UpdateDefaults.Cooldown.SemverMinorDays ≠ 0 ∧
      tc.UpdateDefaults.Cooldown.SemverPatchDays ≠ 0 ∧
      tc.UpdateDefaults.Cooldown.DefaultDays ≠ 0) :
    cdComplete (addCooldownToExistingUpdate v tc).1 := by
  unfold cdComplete addCooldownToExistingUpdate
  dsimp only
  split
  · rename_i h
    exact h
  · exact hcd0

theorem fixExisting_dirSet (u : Update) : dirSet (fixExistingUpdateConfig u).1 := by
  unfold dirSet fixExistingUpdateConfig
  split
  · simp [hasDirectorySet, str]
  · rename_i h
    simpa using h

theorem fixExisting_groups (u : Update) :
    (fixExistingUpdateConfig u).1.Groups = u.Groups := by
  unfold fixExistingUpdateConfig
  split <;> rfl

theorem fixPass_dirSet (tc : ToolConfig) (u : Update) : dirSet (fixPass tc u).1 := by
  rw [fixPass_fst]
  have h1 := fixExisting_dirSet u
  obtain ⟨-, hd, hds, -⟩ := addCooldown_fields (fixExistingUpdateConfig u).1 tc
  unfold dirSet hasDirectorySet at h1 ⊢
  rw [hd, hds]
  exact h1

theorem fixPass_cdComplete (tc : ToolConfig) (u : Update)
    (hcd0 : tc.UpdateDefaults.Cooldown.SemverMajorDays ≠ 0 ∧
      tc.UpdateDefaults.Cooldown.SemverMinorDays ≠ 0 ∧
      tc.UpdateDefaults.Cooldown.SemverPatchDays ≠ 0 ∧
      tc.UpdateDefaults.Cooldown.DefaultDays ≠ 0) :
    cdComplete (fixPass tc u).1 := by
  rw [fixPass_fst]
  exact addCooldown_complete _ tc hcd0

theorem fixPass_groups (tc : ToolConfig) (u : Update) :
    (fixPass tc u).1.Groups = u.Groups := by
  rw [fixPass_fst]
  exact ((addCooldown_fields (fixExistingUpdateConfig u).1 tc).2.2.2).trans
    (fixExisting_groups u)

theorem createUpdateEntry_dirSet (t f : GoStr) (tc : ToolConfig) :
    dirSet (createUpdateEntry t (GetManifestPath f t) tc) := by
  obtain ⟨-, hd, -, -⟩ := createUpdateEntry_fields t (GetManifestPath f t) tc
  unfold dirSet hasDirectorySet
  rw [hd]
  rw [if_pos (getManifestPath_ne_nil f t)]

theorem createUpdateEntry_stable (t p : GoStr) (tc : ToolConfig) :
    stableGroups (createUpdateEntry t p tc) := by
  obtain ⟨-, -, -, hg⟩ := createUpdateEntry_fields t p tc
  unfold stableGroups
  rw [hg]
  rfl

theorem groupFix_fields (u : Update) :
    ∃ G, (if u.Groups.length > 0 then ensureStableGroupPrefixes u else u) =
      { u with Groups := G } := by
  by_cases h : u.Groups.length > 0
  · rw [if_pos h]
    exact ensure_groups_only u
  · rw [if_neg h]
    exact ⟨u.Groups, rfl⟩

theorem groupFix_stable (u : Update) (hlen : u.Groups.length ≤ 99)
    (hn : ∀ n ∈ u.Groups.map (fun p => p.1), n ≠ [] ∧ '\n' ∉ n) :
    stableGroups (if u.Groups.length > 0 then ensureStableGroupPrefixes u else u) := by
  by_cases h : u.Groups.length > 0
  · rw [if_pos h]
    exact stable_after_ensure hlen hn
  · rw [if_neg h]
    have hnil : u.Groups = [] := List.length_eq_zero.mp (by omega)
    unfold stableGroups
    rw [hnil]
    rfl

theorem pruneStaleStage_updates (chk : GoStr → Bool) (d : DependabotConfig)
    (i : ChangeInfo) : (pruneStaleStage chk d i).1.Updates =
      d.Updates.filter (fun u => chk u.Directory) := rfl

theorem fixStage_updates (tc : ToolConfig) (d : DependabotConfig) (i : ChangeInfo) :
    (fixStage tc d i).1.Updates = (d.Updates.map (fixPass tc)).map (fun r => r.1) := rfl

theorem groupStage_updates (tc : ToolConfig) (d : DependabotConfig) :
    (groupStage tc d).Updates = d.Updates ∨
    ((tc.StableGroupPrefixes = none ∨ tc.StableGroupPrefixes = some true) ∧
      (groupStage tc d).Updates = d.Updates.map (fun u =>
        if u.Groups.length > 0 then ensureStableGroupPrefixes u else u)) := by
  unfold groupStage
  by_cases h : tc.StableGroupPrefixes = none ∨ tc.StableGroupPrefixes = some true
  · rw [if_pos h]
    exact Or.inr ⟨h, rfl⟩
  · rw [if_neg h]
    exact Or.inl rfl

theorem groupStage_registries (tc : ToolConfig) (d : DependabotConfig) :
    (groupStage tc d).Registries = d.Registries := by
  unfold groupStage
  split <;> rfl

theorem pruneRegistriesStage_updates (c : DependabotConfig) (i : ChangeInfo) :
    (pruneRegistriesStage c i).1.Updates = c.Updates := rfl

theorem pruneRegs_referenced (c : DependabotConfig) (i : ChangeInfo) :
    regsReferenced (pruneRegistriesStage c i).1 := by
  intro p hp
  have hmem2 : p ∈ c.Registries.filter (fun p =>
      c.Updates.any (fun u => u.Registries.contains p.1)) := hp
  have := (List.mem_filter.mp hmem2).2
  simp only [List.any_eq_true] at this
  obtain ⟨u, hu, hcon⟩ := this
  exact ⟨u, hu, by simpa using hcon⟩

theorem updateConfig_decomp (doc0 : DependabotConfig) (ms : List (GoStr × GoStr))
    (tc : ToolConfig) (lf : GoStr → GoStr) (chk : GoStr → Bool) :
    UpdateConfig doc0 ms tc lf chk =
      pruneRegistriesStage
        (groupStage tc (processStage (List.insertionSort manifestLeP ms) tc lf
          (fixStage tc (pruneStaleStage chk doc0 emptyChangeInfo).1
            (pruneStaleStage chk doc0 emptyChangeInfo).2).1
          (fixStage tc (pruneStaleStage chk doc0 emptyChangeInfo).1
            (pruneStaleStage chk doc0 emptyChangeInfo).2).2).1)
        (processStage (List.insertionSort manifestLeP ms) tc lf
          (fixStage tc (pruneStaleStage chk doc0 emptyChangeInfo).1
            (pruneStaleStage chk doc0 emptyChangeInfo).2).1
          (fixStage tc (pruneStaleStage chk doc0 emptyChangeInfo).1
            (pruneStaleStage chk doc0 emptyChangeInfo).2).2).2 := rfl
theorem createUpdateEntry_cdComplete (t p : GoStr) (tc : ToolConfig)
    (hov : tc.UpdateOverrides = [])
    (hcd0 : tc.UpdateDefaults.Cooldown.SemverMajorDays ≠ 0 ∧
      tc.UpdateDefaults.Cooldown.SemverMinorDays ≠ 0 ∧
      tc.UpdateDefaults.Cooldown.SemverPatchDays ≠ 0 ∧
      tc.UpdateDefaults.Cooldown.DefaultDays ≠ 0) :
    cdComplete (createUpdateEntry t p tc) := by
  unfold cdComplete
  rw [createUpdateEntry_cooldown t p tc hov]
  exact hcd0

theorem groupStage_entry_props (tc : ToolConfig) (d : DependabotConfig) :
    ∀ u2 ∈ (groupStage tc d).Updates, ∃ u ∈ d.Updates,
      (∃ G, u2 = { u with Groups := G }) ∧
      ((tc.StableGroupPrefixes = none ∨ tc.StableGroupPrefixes = some true) →
        u2 = (if u.Groups.length > 0 then ensureStableGroupPrefixes u else u)) := by
  intro u2 hu2
  unfold groupStage at hu2
  by_cases hflag : tc.StableGroupPrefixes = none ∨ tc.StableGroupPrefixes = some true
  · rw [if_pos hflag] at hu2
    have hmem : u2 ∈ d.Updates.map (fun u =>
        if u.Groups.length > 0 then ensureStableGroupPrefixes u else u) := hu2
    obtain ⟨u, hu, rfl⟩ := List.mem_map.mp hmem
    exact ⟨u, hu, groupFix_fields u, fun _ => rfl⟩
  · rw [if_neg hflag] at hu2
    exact ⟨u2, hu2, ⟨u2.Groups, rfl⟩, fun h => absurd h hflag⟩

theorem coveredIn_groupStage (tc : ToolConfig) (d : DependabotConfig) (f t : GoStr)
    (h : coveredIn d.Updates f t) : coveredIn (groupStage tc d).Updates f t := by
  rcases h with h | h | ⟨u, hu, hc⟩
  · exact Or.inl h
  · exact Or.inr (Or.inl h)
  · refine Or.inr (Or.inr ?_)
    unfold groupStage
    by_cases hflag : tc.StableGroupPrefixes = none ∨ tc.StableGroupPrefixes = some true
    · rw [if_pos hflag]
      refine ⟨if u.Groups.length > 0 then ensureStableGroupPrefixes u else u, ?_, ?_⟩
      · exact List.mem_map_of_mem _ hu
      · obtain ⟨G, hG⟩ := groupFix_fields u
        rw [hG]
        exact hc
    · rw [if_neg hflag]
      exact ⟨u, hu, hc⟩

theorem pruneRegistriesStage_registries (c : DependabotConfig) (i : ChangeInfo) :
    (pruneRegistriesStage c i).1.Registries =
      c.Registries.filter (fun p =>
        c.Updates.any (fun u => u.Registries.contains p.1)) := rfl

theorem pruneRegs_keys (c : DependabotConfig) (i : ChangeInfo) (n : GoStr)
    (hk : (assocFind? c.Registries n).isSome)
    (hr : ∃ u ∈ c.Updates, n ∈ u.Registries) :
    (assocFind? (pruneRegistriesStage c i).1.Registries n).isSome := by
  rw [pruneRegistriesStage_registries]
  rw [assocFind_isSome_iff] at hk ⊢
  obtain ⟨p, hp, hpk⟩ := hk
  obtain ⟨u, hu, hn⟩ := hr
  refine ⟨p, List.mem_filter.mpr ⟨hp, ?_⟩, hpk⟩
  refine List.any_eq_true.mpr ⟨u, hu, ?_⟩
  rw [hpk]
  exact List.elem_eq_true_of_mem hn

/-- The invariants a reconciliation run establishes on its output: every
entry has its directory and all cooldown fields set, group prefixes are
stable when the stabilization flag is on, every registry name resolved for
a manifest of the input set is a key of the surviving registry map, and
every surviving registry is referenced — provided the tool configuration's
default cooldown days are all nonzero, every override that replaces the
cooldown block has its four day counts nonzero, and the incoming document's
group maps are small with well-formed names. -/
theorem run1_invariants (tc : ToolConfig) (lf : GoStr → GoStr) (chk : GoStr → Bool)
    (ms : List (GoStr × GoStr)) (doc0 : DependabotConfig)
    (hcd0 : tc.UpdateDefaults.Cooldown.SemverMajorDays ≠ 0 ∧
      tc.UpdateDefaults.Cooldown.SemverMinorDays ≠ 0 ∧
      tc.UpdateDefaults.Cooldown.SemverPatchDays ≠ 0 ∧
      tc.UpdateDefaults.Cooldown.DefaultDays ≠ 0)
    (hovcd : ∀ q ∈ tc.UpdateOverrides,
      (q.2.Cooldown.SemverMajorDays ≠ 0 ∨ q.2.Cooldown.SemverMinorDays ≠ 0 ∨
       q.2.Cooldown.SemverPatchDays ≠ 0 ∨ q.2.Cooldown.DefaultDays ≠ 0 ∨
       q.2.Cooldown.Include.length > 0 ∨ q.2.Cooldown.Exclude.length > 0) →
      (q.2.Cooldown.SemverMajorDays ≠ 0 ∧ q.2.Cooldown.SemverMinorDays ≠ 0 ∧
       q.2.Cooldown.SemverPatchDays ≠ 0 ∧ q.2.Cooldown.DefaultDays ≠ 0))
    (hg99 : ∀ u ∈ doc0.Updates, u.Groups.length ≤ 99)
    (hnames : ∀ u ∈ doc0.Updates, ∀ n ∈ u.Groups.map (fun p => p.1),
      n ≠ [] ∧ '\n' ∉ n) :
    (∀ u ∈ (UpdateConfig doc0 ms tc lf chk).1.Updates, dirSet u ∧ cdComplete u) ∧
    ((tc.StableGroupPrefixes = none ∨ tc.StableGroupPrefixes = some true) →
      ∀ u ∈ (UpdateConfig doc0 ms tc lf chk).1.Updates, stableGroups u) ∧
    (∀ m ∈ ms, m.1 ≠ [] → m.2 ≠ [] →
      ∀ n ∈ manifestResolvedNames tc lf m.1 m.2,
        (assocFind? (UpdateConfig doc0 ms tc lf chk).1.Registries n).isSome) ∧
    regsReferenced (UpdateConfig doc0 ms tc lf chk).1 := by
  rw [updateConfig_decomp]
  set S := pruneStaleStage chk doc0 emptyChangeInfo with hSdef
  set F := fixStage tc S.1 S.2 with hFdef
  set P := processStage (List.insertionSort manifestLeP ms) tc lf F.1 F.2 with hPdef
  set G := groupStage tc P.1 with hGdef
  have hFprops : ∀ u ∈ F.1.Updates, dirSet u ∧ cdComplete u ∧
      ∃ v ∈ doc0.Updates, u.Groups = v.Groups := by
    intro u hu
    rw [hFdef, fixStage_updates] at hu
    simp only [List.map_map, List.mem_map, Function.comp_apply] at hu
    obtain ⟨v, hv, rfl⟩ := hu
    have hv0 : v ∈ doc0.Updates := by
      rw [hSdef, pruneStaleStage_updates] at hv
      exact (List.mem_filter.mp hv).1
    exact ⟨fixPass_dirSet tc v, fixPass_cdComplete tc v hcd0,
      v, hv0, fixPass_groups tc v⟩
  have hPprops : ∀ u ∈ P.1.Updates, (dirSet u ∧ cdComplete u) ∧
      u.Groups.length ≤ 99 ∧
      (∀ n ∈ u.Groups.map (fun p => p.1), n ≠ [] ∧ '\n' ∉ n) := by
    intro u hu
    rw [hPdef] at hu
    rcases processStage_mem_shape tc lf (List.insertionSort manifestLeP ms)
      F.1 F.2 u hu with ⟨v, hv, hr⟩ | ⟨t2, f2, R, ht2, rfl⟩
    · obtain ⟨hd, hc, v0, hv0, hgv⟩ := hFprops v hv
      refine ⟨⟨regExt_dirSet hr hd, regExt_cdComplete hr hc⟩, ?_, ?_⟩
      · rw [regExt_groups hr, hgv]
        exact hg99 v0 hv0
      · rw [regExt_groups hr, hgv]
        exact hnames v0 hv0
    · have hG0 : ({ createUpdateEntry t2 (GetManifestPath f2 t2) tc with
          Registries := R } : Update).Groups = [] :=
        (createUpdateEntry_fields t2 (GetManifestPath f2 t2) tc).2.2.2
      refine ⟨⟨?_, ?_⟩, ?_, ?_⟩
      · exact createUpdateEntry_dirSet t2 f2 tc
      · exact createUpdateEntry_cdComplete_gen t2 (GetManifestPath f2 t2) tc hcd0 hovcd
      · rw [hG0]
        simp
      · rw [hG0]
        simp
  have hGprops : ∀ u2 ∈ G.Updates, (dirSet u2 ∧ cdComplete u2) ∧
      ((tc.StableGroupPrefixes = none ∨ tc.StableGroupPrefixes = some true) →
        stableGroups u2) := by
    intro u2 hu2
    rw [hGdef] at hu2
    obtain ⟨u, hu, ⟨Gg, hGg⟩, hsf⟩ := groupStage_entry_props tc P.1 u2 hu2
    obtain ⟨⟨hd, hc⟩, h99, hnm⟩ := hPprops u hu
    refine ⟨⟨?_, ?_⟩, ?_⟩
    · rw [hGg]
      exact hd
    · rw [hGg]
      exact hc
    · intro hflag
      rw [hsf hflag]
      exact groupFix_stable u h99 hnm
  have hGmem : ∀ u ∈ P.1.Updates, ∃ u2 ∈ G.Updates, u2.Registries = u.Registries := by
    intro u hu
    rw [hGdef]
    unfold groupStage
    by_cases hflag : tc.StableGroupPrefixes = none ∨ tc.StableGroupPrefixes = some true
    · rw [if_pos hflag]
      refine ⟨if u.Groups.length > 0 then ensureStableGroupPrefixes u else u,
        List.mem_map_of_mem _ hu, ?_⟩
      obtain ⟨G2, hG2⟩ := groupFix_fields u
      rw [hG2]
    · rw [if_neg hflag]
      exact ⟨u, hu, rfl⟩
  refine ⟨?_, ?_, ?_, ?_⟩
  · intro u hu
    rw [pruneRegistriesStage_updates] at hu
    exact (hGprops u hu).1
  · intro hflag u hu
    rw [pruneRegistriesStage_updates] at hu
    exact (hGprops u hu).2 hflag
  · intro m hm hf ht n hn
    have hstep := processStage_names tc lf (List.insertionSort manifestLeP ms)
      F.1 F.2 m ((List.perm_insertionSort manifestLeP ms).mem_iff.mpr hm) hf ht n hn
    obtain ⟨hkey, u, hu, hmem⟩ := hstep
    obtain ⟨u2, hu2, hreg2⟩ := hGmem u hu
    refine pruneRegs_keys G P.2 n ?_ ⟨u2, hu2, ?_⟩
    · rw [hGdef, groupStage_registries]
      exact hkey
    · rw [hreg2]
      exact hmem
  · exact pruneRegs_referenced G P.2


theorem sortForYaml_perm (c : DependabotConfig) :
    ((sortForYaml c).Updates).Perm c.Updates := by
  unfold sortForYaml
  split
  · exact List.perm_insertionSort updateLeP c.Updates
  · exact List.Perm.refl _

theorem sortForYaml_registries (c : DependabotConfig) :
    (sortForYaml c).Registries = c.Registries := by
  unfold sortForYaml
  split <;> rfl

theorem sortForYaml_sorted (c : DependabotConfig) :
    (sortForYaml c).Updates.Pairwise updateLeP := by
  unfold sortForYaml
  split
  · exact List.sorted_insertionSort updateLeP c.Updates
  · rename_i hlen
    cases hu : c.Updates with
    | nil => simp
    | cons a l =>
      cases l with
      | nil => simp
      | cons b l2 =>
        exfalso
        rw [hu] at hlen
        simp at hlen

theorem sortForYaml_of_sorted {d : DependabotConfig}
    (h : d.Updates.Pairwise updateLeP) : sortForYaml d = d := by
  unfold sortForYaml
  split
  · rw [List.Sorted.insertionSort_eq h]
  · rfl

theorem sortForYaml_idem (c : DependabotConfig) :
    sortForYaml (sortForYaml c) = sortForYaml c :=
  sortForYaml_of_sorted (sortForYaml_sorted c)
/-! ## Claim C1 -/

/-- The idempotence scenario: one docker manifest at the repository root. -/
def idemMs : List (GoStr × GoStr) := [(str "Dockerfile", str "docker")]

/-- First reconciliation run with an all-default tool configuration (all
default cooldown days zero). -/
def idemRun1 : DependabotConfig × ChangeInfo :=
  UpdateConfig {} idemMs {} (fun _ => []) (fun _ => true)

/-- Second reconciliation run on the persisted (sorted) result of the
first, with the same manifests and tool configuration. -/
def idemRun2 : DependabotConfig × ChangeInfo :=
  UpdateConfig (sortForYaml idemRun1.1) idemMs {} (fun _ => []) (fun _ => true)

/-- A tool configuration with nonzero default cooldown days but an override
whose cooldown replacement leaves three day counts zero. -/
def ovTc : ToolConfig :=
  { UpdateDefaults := { Cooldown :=
      { SemverMajorDays := 5, SemverMinorDays := 3,
        SemverPatchDays := 2, DefaultDays := 1 } }
    UpdateOverrides := [(str "npm", { Cooldown := { SemverMajorDays := 7 } })] }

/-- One npm manifest at the repository root. -/
def ovMs : List (GoStr × GoStr) := [(str "package.json", str "npm")]

/-- First run of the partial-override scenario. -/
def ovRun1 : DependabotConfig × ChangeInfo :=
  UpdateConfig {} ovMs ovTc (fun _ => []) (fun _ => true)

/-- Second run of the partial-override scenario, on the persisted result. -/
def ovRun2 : DependabotConfig × ChangeInfo :=
  UpdateConfig (sortForYaml ovRun1.1) ovMs ovTc (fun _ => []) (fun _ => true)

/-- A tool configuration with nonzero default cooldown days and a default
npm registry that requires no usage match. -/
def regTc : ToolConfig :=
  { UpdateDefaults := { Cooldown :=
      { SemverMajorDays := 5, SemverMinorDays := 3,
        SemverPatchDays := 2, DefaultDays := 1 } }
    Registries := [(str "npm", [(str "reg1",
      { Typ := str "npm-registry", URL := str "https://npm.example.com" })])] }

/-- One npm manifest in subdirectory `a`. -/
def regMs : List (GoStr × GoStr) := [(str "a/package.json", str "npm")]

/-- Two npm entries that both cover the manifest `a/package.json`: the
entry at `/a` (exact directory) and the entry at `/` (prefix). -/
def regDoc0 : DependabotConfig :=
  { Updates := [{ PackageEcosystem := str "npm", Directory := str "/a" },
                { PackageEcosystem := str "npm", Directory := str "/" }] }

/-- First run of the default-registry scenario: the first covering entry in
document order, `/a`, receives the resolved registry name. -/
def regRun1 : DependabotConfig × ChangeInfo :=
  UpdateConfig regDoc0 regMs regTc (fun _ => []) (fun _ => true)

/-- The persisted result of the first run: serialization sorts `/` before
`/a`, so the first covering entry of the next run is now `/`. -/
def regDoc1 : DependabotConfig := sortForYaml regRun1.1

/-- Second run of the default-registry scenario. -/
def regRun2 : DependabotConfig × ChangeInfo :=
  UpdateConfig regDoc1 regMs regTc (fun _ => []) (fun _ => true)

set_option maxRecDepth 100000 in
/-- C1 counterexample: three already-reconciled documents on which a second
run with the same manifests and tool configuration is not a no-op.  (1)
With an all-default tool configuration the entry created by the first run
has all cooldown days zero, so the second run's cooldown backfill fires
again and reports a fixed update.  (2) With nonzero default cooldown days
but an ecosystem override whose cooldown replacement has a zero day count,
the entry created from the override is likewise backfilled again.  (3) With
a default registry and two entries covering the same manifest, the first
run appends the registry name to the first covering entry in document
order (`/a`), but serialization reorders the entries (`/` first), so the
second run appends the name to the other entry: its ChangeInfo is empty —
yet the document changes and the emitted YAML differs from the first
run's, refuting byte-identical serialization. -/
theorem claim1_counterexample :
    (idemRun2.2 ≠ emptyChangeInfo ∧ idemRun2.2.FixedUpdates.length = 1) ∧
    (ovRun2.2 ≠ emptyChangeInfo ∧ ovRun2.2.FixedUpdates.length = 1) ∧
    (regRun2.2 = emptyChangeInfo ∧ regRun2.1 ≠ regDoc1 ∧
     ToYaml regRun2.1 ≠ ToYaml regDoc1 ∧ ToYaml regDoc1 = ToYaml regRun1.1) := by
  refine ⟨⟨?_, ?_⟩, ⟨?_, ?_⟩, ?_, ?_, ?_, ?_⟩ <;> decide

/-- C1 (amended): reconciliation is idempotent provided that (i) the tool
configuration's four default cooldown days are all nonzero and every
ecosystem override that replaces the cooldown block has its four day
counts nonzero (otherwise the cooldown backfill re-fires on every run);
(ii) the incoming document's group maps have at most 99 groups with
nonempty newline-free names (otherwise renaming never stabilizes); (iii)
the directory checker accepts every directory of the first run's result
(otherwise the second run prunes it); and (iv) in the persisted (sorted)
result, each manifest's first covering entry already references every
registry name resolved for that manifest (otherwise the second run appends
the names there).  Then a second run on the persisted result of the first,
against the same manifest set, returns the document unchanged with an
empty ChangeInfo (all five lists empty), and `ToYaml` of the second run's
input is byte-identical to `ToYaml` of the first run's result.  Default
registries and update overrides are otherwise unrestricted. -/
theorem claim1_amended (tc : ToolConfig) (lf : GoStr → GoStr) (chk : GoStr → Bool)
    (ms : List (GoStr × GoStr)) (doc0 : DependabotConfig)
    (hcd0 : tc.UpdateDefaults.Cooldown.SemverMajorDays ≠ 0 ∧
      tc.UpdateDefaults.Cooldown.SemverMinorDays ≠ 0 ∧
      tc.UpdateDefaults.Cooldown.SemverPatchDays ≠ 0 ∧
      tc.UpdateDefaults.Cooldown.DefaultDays ≠ 0)
    (hovcd : ∀ q ∈ tc.UpdateOverrides,
      (q.2.Cooldown.SemverMajorDays ≠ 0 ∨ q.2.Cooldown.SemverMinorDays ≠ 0 ∨
       q.2.Cooldown.SemverPatchDays ≠ 0 ∨ q.2.Cooldown.DefaultDays ≠ 0 ∨
       q.2.Cooldown.Include.length > 0 ∨ q.2.Cooldown.Exclude.length > 0) →
      (q.2.Cooldown.SemverMajorDays ≠ 0 ∧ q.2.Cooldown.SemverMinorDays ≠ 0 ∧
       q.2.Cooldown.SemverPatchDays ≠ 0 ∧ q.2.Cooldown.DefaultDays ≠ 0))
    (hg99 : ∀ u ∈ doc0.Updates, u.Groups.length ≤ 99)
    (hnames : ∀ u ∈ doc0.Updates, ∀ n ∈ u.Groups.map (fun p => p.1),
      n ≠ [] ∧ '\n' ∉ n)
    (hchk : ∀ u ∈ (sortForYaml (UpdateConfig doc0 ms tc lf chk).1).Updates,
      chk u.Directory = true)
    (hcovfirst : ∀ m ∈ ms, m.1 = [] ∨ m.2 = [] ∨
      ∃ pre u post,
        (sortForYaml (UpdateConfig doc0 ms tc lf chk).1).Updates =
          pre ++ u :: post ∧
        (∀ v ∈ pre, coversManifest m.1 m.2 v = false) ∧
        coversManifest m.1 m.2 u = true ∧
        (∀ n ∈ manifestResolvedNames tc lf m.1 m.2, n ∈ u.Registries)) :
    UpdateConfig (sortForYaml (UpdateConfig doc0 ms tc lf chk).1) ms tc lf chk =
      (sortForYaml (UpdateConfig doc0 ms tc lf chk).1, emptyChangeInfo) ∧
    ToYaml (sortForYaml (UpdateConfig doc0 ms tc lf chk).1) =
      ToYaml (UpdateConfig doc0 ms tc lf chk).1 := by
  obtain ⟨h1, h2, h3, h4⟩ := run1_invariants tc lf chk ms doc0 hcd0 hovcd hg99 hnames
  constructor
  · refine updateConfig_noop tc lf chk ms
      (sortForYaml (UpdateConfig doc0 ms tc lf chk).1) hchk ?_ ?_ ?_ ?_ ?_
    · intro u hu
      exact (h1 u ((sortForYaml_perm _).mem_iff.mp hu)).1
    · intro u hu
      exact (h1 u ((sortForYaml_perm _).mem_iff.mp hu)).2
    · intro hflag u hu
      exact h2 hflag u ((sortForYaml_perm _).mem_iff.mp hu)
    · intro m hm
      by_cases hf : m.1 = []
      · exact Or.inl hf
      by_cases ht : m.2 = []
      · exact Or.inr (Or.inl ht)
      refine Or.inr (Or.inr ⟨?_, ?_⟩)
      · intro n hn
        rw [sortForYaml_registries]
        exact h3 m hm hf ht n hn
      · rcases hcovfirst m hm with h | h | h
        · exact absurd h hf
        · exact absurd h ht
        · exact h
    · intro p hp
      rw [sortForYaml_registries] at hp
      obtain ⟨u, hu, hmem⟩ := h4 p hp
      exact ⟨u, (sortForYaml_perm _).mem_iff.mpr hu, hmem⟩
  · unfold ToYaml
    rw [sortForYaml_idem]

/-- A tool configuration exercising every side condition of the amended
idempotence theorem: nonzero default cooldown days, an override whose
cooldown replacement is fully nonzero, and a default npm registry. -/
def wTc : ToolConfig :=
  { UpdateDefaults := { Cooldown :=
      { SemverMajorDays := 5, SemverMinorDays := 3,
        SemverPatchDays := 2, DefaultDays := 1 } }
    UpdateOverrides := [(str "npm",
      { Cooldown := { SemverMajorDays := 2, SemverMinorDays := 2,
                      SemverPatchDays := 2, DefaultDays := 2 } })]
    Registries := [(str "npm", [(str "reg1",
      { Typ := str "npm-registry", URL := str "https://npm.example.com" })])] }

/-- One npm manifest at the repository root, for the witness scenario. -/
def wMs : List (GoStr × GoStr) := [(str "package.json", str "npm")]

/-- The single entry of the witness scenario's reconciled document: created
from the override cooldown, referencing the resolved registry. -/
def wU0 : Update :=
  { PackageEcosystem := str "npm"
    Directory := str "/"
    Registries := [str "reg1"]
    Cooldown := { SemverMajorDays := 2, SemverMinorDays := 2,
                  SemverPatchDays := 2, DefaultDays := 2 } }

set_option maxRecDepth 100000 in
/-- C1 witness: the amended idempotence theorem applied to the concrete
scenario of one npm manifest against an empty document, with a default
registry and a complete override cooldown. -/
theorem claim1_witness :
    UpdateConfig (sortForYaml (UpdateConfig {} wMs wTc (fun _ => [])
        (fun _ => true)).1) wMs wTc (fun _ => []) (fun _ => true) =
      (sortForYaml (UpdateConfig {} wMs wTc (fun _ => [])
        (fun _ => true)).1, emptyChangeInfo) ∧
    ToYaml (sortForYaml (UpdateConfig {} wMs wTc (fun _ => [])
        (fun _ => true)).1) =
      ToYaml (UpdateConfig {} wMs wTc (fun _ => []) (fun _ => true)).1 :=
  claim1_amended wTc (fun _ => []) (fun _ => true) wMs {}
    (by decide) (by decide) (by decide) (by decide) (by decide)
    (fun m hm => by
      rcases List.mem_singleton.mp hm with rfl
      exact Or.inr (Or.inr ⟨[], wU0, [],
        by decide, by decide, by decide, by decide⟩))

end Dbl
